import Mathlib

/-!
Verification development for the rich-text conversion subsystem of a Jira
command-line client (Go).  The subsystem consists of:

* the ADF document model and plain-text extractor (`types.go`:
  `ADFDocument`, `ADFNode`, `ADFMark`, `ToPlainText`, `extractText`,
  `Description.UnmarshalJSON`);
* the markdown-to-ADF converter (`api/markdown.go`: `MarkdownToADF`,
  `convertNode`, `convertInlineNode`, `applyMark`, `convertTable`, ...);
* the wiki-markup detector and wiki-to-markdown transcoder (`wiki.go`:
  `IsWikiMarkup`, `looksLikeWikiNumberedList`, `WikiToMarkdown` and its
  per-pattern rewrite helpers).

Strings are embedded as `List Char` (the Go code operates on UTF-8 byte
strings; all inputs considered here are ASCII, where the two views agree).
Each Lean definition mirrors one Go function and is named after it.
-/

namespace JiraTicketCli

/-- A JSON value.  Used both to model `encoding/json` inputs for
`Description.UnmarshalJSON` and to model Go's `map[string]interface{}`
attribute maps (`attrs` on ADF nodes and marks). -/
inductive JSONVal where
  | null : JSONVal
  | boolV : Bool → JSONVal
  | num : Int → JSONVal
  | str : List Char → JSONVal
  | arr : List JSONVal → JSONVal
  | obj : List (List Char × JSONVal) → JSONVal
deriving Repr

/-- Struct `ADFMark` (types.go): `{ Type string; Attrs map[string]interface{} }`.
The attribute map is modelled as an association list; the `nil` map is the
empty list. -/
structure ADFMark where
  type : List Char
  attrs : List (List Char × JSONVal)
deriving Repr

/-- Struct `ADFNode` (types.go): `{ Type string; Text string; Content []ADFNode;
Attrs map[string]interface{}; Marks []ADFMark }`. -/
inductive ADFNode where
  | mk (type : List Char) (text : List Char) (content : List ADFNode)
       (attrs : List (List Char × JSONVal)) (marks : List ADFMark)
deriving Repr

def ADFNode.type : ADFNode → List Char
  | .mk t _ _ _ _ => t

def ADFNode.text : ADFNode → List Char
  | .mk _ tx _ _ _ => tx

def ADFNode.content : ADFNode → List ADFNode
  | .mk _ _ c _ _ => c

def ADFNode.attrs : ADFNode → List (List Char × JSONVal)
  | .mk _ _ _ a _ => a

def ADFNode.marks : ADFNode → List ADFMark
  | .mk _ _ _ _ m => m

/-- Struct `ADFDocument` (types.go): `{ Type string; Version int; Content []ADFNode }`.
A Go `*ADFDocument` that may be nil is modelled as `Option ADFDocument`. -/
structure ADFDocument where
  type : List Char
  version : Int
  content : List ADFNode
deriving Repr

mutual

/-- Function `extractText` (types.go): depth-first fold over a node list;
`extractNodeText` is the body of its `for` loop for one node. -/
def extractText : List ADFNode → List Char
  | [] => []
  | n :: ns => extractNodeText n ++ extractText ns

/-- Loop body of `extractText`: the node's text when non-empty, then the
recursively extracted text of its children when any, then a newline when
the node type is `paragraph` or `hardBreak`. -/
def extractNodeText : ADFNode → List Char
  | ADFNode.mk t tx c _ _ =>
      (if tx ≠ [] then tx else []) ++
      (if c.length > 0 then extractText c else []) ++
      (if t = "paragraph".toList ∨ t = "hardBreak".toList then ['\n'] else [])

end

/-- Method `ToPlainText` on `*ADFDocument` (types.go): nil receiver yields the empty
string, otherwise `extractText` of the document content. -/
def ADFDocument.toPlainText : Option ADFDocument → List Char
  | none => []
  | some d => extractText d.content

/-! ### `encoding/json` decoding into the ADF structs

`Description.UnmarshalJSON` calls `json.Unmarshal` on a raw JSON value,
first into a Go `string` and then into an `ADFDocument`.  The stdlib
decoder is modelled on already-parsed `JSONVal`s: decoding JSON `null`
into a non-pointer value succeeds and leaves the value at its zero value;
decoding a string literal into a `string` succeeds; a JSON object decodes
into a struct field by field in input order (later duplicates overwrite,
unknown keys are ignored, a type-mismatched field value is an error);
everything else is a type error (`none`). -/

/-- Decoder `json.Unmarshal` into a Go `string`. -/
def decodeGoString : JSONVal → Option (List Char)
  | .null => some []
  | .str s => some s
  | _ => none

/-- Decoder `json.Unmarshal` into a Go `int`. -/
def decodeGoInt : JSONVal → Option Int
  | .null => some 0
  | .num n => some n
  | _ => none

/-- Decoder `json.Unmarshal` into a Go `map[string]interface{}` (the `Attrs`
fields): any JSON object is accepted, its values kept as raw JSON. -/
def decodeGoMap : JSONVal → Option (List (List Char × JSONVal))
  | .null => some []
  | .obj fs => some fs
  | _ => none

mutual

/-- Decoder `json.Unmarshal` into an `ADFDocument` struct. -/
def decodeADFDocument : JSONVal → Option ADFDocument
  | .null => some ⟨[], 0, []⟩
  | .obj fs => decodeDocFields fs ⟨[], 0, []⟩
  | _ => none

/-- Field loop of the `ADFDocument` struct decoder. -/
def decodeDocFields : List (List Char × JSONVal) → ADFDocument → Option ADFDocument
  | [], acc => some acc
  | (k, v) :: rest, acc =>
      if k = "type".toList then
        match decodeGoString v with
        | some s => decodeDocFields rest ⟨s, acc.version, acc.content⟩
        | none => none
      else if k = "version".toList then
        match decodeGoInt v with
        | some n => decodeDocFields rest ⟨acc.type, n, acc.content⟩
        | none => none
      else if k = "content".toList then
        match decodeNodeArr v with
        | some c => decodeDocFields rest ⟨acc.type, acc.version, c⟩
        | none => none
      else decodeDocFields rest acc

/-- Decoder `json.Unmarshal` into a `[]ADFNode`. -/
def decodeNodeArr : JSONVal → Option (List ADFNode)
  | .null => some []
  | .arr xs => decodeNodes xs
  | _ => none

/-- Element loop of the `[]ADFNode` decoder. -/
def decodeNodes : List JSONVal → Option (List ADFNode)
  | [] => some []
  | x :: xs =>
      match decodeADFNode x with
      | some n =>
          match decodeNodes xs with
          | some ns => some (n :: ns)
          | none => none
      | none => none

/-- Decoder `json.Unmarshal` into an `ADFNode` struct. -/
def decodeADFNode : JSONVal → Option ADFNode
  | .null => some (.mk [] [] [] [] [])
  | .obj fs => decodeNodeFields fs (.mk [] [] [] [] [])
  | _ => none

/-- Field loop of the `ADFNode` struct decoder. -/
def decodeNodeFields : List (List Char × JSONVal) → ADFNode → Option ADFNode
  | [], acc => some acc
  | (k, v) :: rest, ADFNode.mk t tx c a m =>
      if k = "type".toList then
        match decodeGoString v with
        | some s => decodeNodeFields rest (.mk s tx c a m)
        | none => none
      else if k = "text".toList then
        match decodeGoString v with
        | some s => decodeNodeFields rest (.mk t s c a m)
        | none => none
      else if k = "content".toList then
        match decodeNodeArr v with
        | some c2 => decodeNodeFields rest (.mk t tx c2 a m)
        | none => none
      else if k = "attrs".toList then
        match decodeGoMap v with
        | some a2 => decodeNodeFields rest (.mk t tx c a2 m)
        | none => none
      else if k = "marks".toList then
        match decodeMarkArr v with
        | some m2 => decodeNodeFields rest (.mk t tx c a m2)
        | none => none
      else decodeNodeFields rest (.mk t tx c a m)

/-- Decoder `json.Unmarshal` into a `[]ADFMark`. -/
def decodeMarkArr : JSONVal → Option (List ADFMark)
  | .null => some []
  | .arr xs => decodeMarks xs
  | _ => none

/-- Element loop of the `[]ADFMark` decoder. -/
def decodeMarks : List JSONVal → Option (List ADFMark)
  | [] => some []
  | x :: xs =>
      match decodeADFMark x with
      | some mk0 =>
          match decodeMarks xs with
          | some ms => some (mk0 :: ms)
          | none => none
      | none => none

/-- Decoder `json.Unmarshal` into an `ADFMark` struct. -/
def decodeADFMark : JSONVal → Option ADFMark
  | .null => some ⟨[], []⟩
  | .obj fs => decodeMarkFields fs ⟨[], []⟩
  | _ => none

/-- Field loop of the `ADFMark` struct decoder. -/
def decodeMarkFields : List (List Char × JSONVal) → ADFMark → Option ADFMark
  | [], acc => some acc
  | (k, v) :: rest, acc =>
      if k = "type".toList then
        match decodeGoString v with
        | some s => decodeMarkFields rest ⟨s, acc.attrs⟩
        | none => none
      else if k = "attrs".toList then
        match decodeGoMap v with
        | some a => decodeMarkFields rest ⟨acc.type, a⟩
        | none => none
      else decodeMarkFields rest acc

end

/-- Struct `Description` (types.go): plain text plus the original ADF document when
the value arrived in structured form. -/
structure Description where
  text : List Char
  adf : Option ADFDocument
deriving Repr

/-- Method `Description.UnmarshalJSON` (types.go): try to decode the value as a
plain string; failing that, as an ADF document (extracting its plain text);
failing both, ignore the value and report no error ("If neither works, just
ignore (null or empty)"). -/
def Description.unmarshalJSON (data : JSONVal) : Except (List Char) Description :=
  match decodeGoString data with
  | some s => .ok ⟨s, none⟩
  | none =>
      match decodeADFDocument data with
      | some adf => .ok ⟨ADFDocument.toPlainText (some adf), some adf⟩
      | none => .ok ⟨[], none⟩

/-! ### String helpers shared by the wiki detector and transcoder -/

/-- Class of RE2's `\s` character class: `[\t\n\f\r ]`. -/
def isWsRe (c : Char) : Bool :=
  c = '\t' || c = '\n' || c = '\x0c' || c = '\r' || c = ' '

/-- Class of Go's `unicode.IsSpace` on ASCII (used by `strings.TrimSpace`). -/
def isWsGo (c : Char) : Bool :=
  c = ' ' || c = '\t' || c = '\n' || c = '\x0b' || c = '\x0c' || c = '\r'

/-- Function `strings.TrimSpace` (ASCII inputs). -/
def trimSpaceGo (s : List Char) : List Char :=
  ((s.dropWhile isWsGo).reverse.dropWhile isWsGo).reverse

/-- Function `strings.Split` at separator newline: the list of lines, empty trailing line
included (splitting the empty string gives one empty line). -/
def splitLines : List Char → List (List Char)
  | [] => [[]]
  | c :: rest =>
      if c = '\n' then [] :: splitLines rest
      else
        match splitLines rest with
        | [] => [[c]]
        | l :: ls => (c :: l) :: ls

/-- Whether `pat` occurs as a contiguous subsequence of `s`. -/
def containsSeq (pat : List Char) : List Char → Bool
  | [] => pat.isPrefixOf ([] : List Char)
  | c :: cs => pat.isPrefixOf (c :: cs) || containsSeq pat cs

/-- Whether a prefix predicate `f` fires at some position of `s`; the
Boolean handed to `f` tells whether the position is at the start of a line
(the `(?m)^` anchor). -/
def anySuffix (f : List Char → Bool → Bool) : Bool → List Char → Bool
  | atLS, [] => f [] atLS
  | atLS, c :: cs => f (c :: cs) atLS || anySuffix f (c = '\n') cs

/-! ### Wiki markup detector (wiki.go)

`wikiPatterns` is a fixed table of ten RE2 patterns; each is embedded as a
prefix matcher (does the pattern match starting exactly here?) lifted over
all positions with `anySuffix`.  The matchers implement the leftmost-first
RE2 semantics of each concrete pattern; for each of these patterns a greedy
character-class run followed by a literal terminator admits only the
maximal run, so matching is deterministic. -/

/-- Pattern `(?m)^h[1-6]\.\s` at one position. -/
def matchAtHeadingWiki (s : List Char) (atLS : Bool) : Bool :=
  atLS &&
    match s with
    | 'h' :: d :: '.' :: w :: _ => ('1' ≤ d && d ≤ '6') && isWsRe w
    | _ => false

/-- Pattern `\{\{[^}]+\}\}` at one position. -/
def matchAtMonospace (s : List Char) (_ : Bool) : Bool :=
  match s with
  | '{' :: '{' :: rest =>
      let r := rest.takeWhile (· ≠ '}')
      !r.isEmpty && "\x7d\x7d".toList.isPrefixOf (rest.drop r.length)
  | _ => false

/-- Pattern `\{code[^}]*\}[\s\S]*?\{code\}` at one position. -/
def matchAtCodeBlock (s : List Char) (_ : Bool) : Bool :=
  "\x7bcode".toList.isPrefixOf s &&
    (let rest := s.drop 5
     let r := rest.takeWhile (· ≠ '}')
     match rest.drop r.length with
     | '}' :: tl => containsSeq ("\x7bcode\x7d".toList) tl
     | _ => false)

/-- Pattern `\{noformat\}[\s\S]*?\{noformat\}` at one position. -/
def matchAtNoformat (s : List Char) (_ : Bool) : Bool :=
  "\x7bnoformat\x7d".toList.isPrefixOf s && containsSeq ("\x7bnoformat\x7d".toList) (s.drop 10)

/-- Pattern `\{quote\}[\s\S]*?\{quote\}` at one position. -/
def matchAtQuote (s : List Char) (_ : Bool) : Bool :=
  "\x7bquote\x7d".toList.isPrefixOf s && containsSeq ("\x7bquote\x7d".toList) (s.drop 7)

/-- Pattern `\[([^\]|]+)\|([^\]]+)\]` at one position. -/
def matchAtPipeLink (s : List Char) (_ : Bool) : Bool :=
  match s with
  | '[' :: rest =>
      let r1 := rest.takeWhile (fun c => c ≠ ']' && c ≠ '|')
      !r1.isEmpty &&
        match rest.drop r1.length with
        | '|' :: rest2 =>
            let r2 := rest2.takeWhile (· ≠ ']')
            !r2.isEmpty && (rest2.drop r2.length).head? = some ']'
        | _ => false
  | _ => false

/-- Pattern `\![^\s!]+\!` at one position. -/
def matchAtImage (s : List Char) (_ : Bool) : Bool :=
  match s with
  | '!' :: rest =>
      let r := rest.takeWhile (fun c => !isWsRe c && c ≠ '!')
      !r.isEmpty && (rest.drop r.length).head? = some '!'
  | _ => false

/-- Pattern `(?m)^bq\.\s` at one position. -/
def matchAtBq (s : List Char) (atLS : Bool) : Bool :=
  atLS &&
    match s with
    | 'b' :: 'q' :: '.' :: w :: _ => isWsRe w
    | _ => false

/-- Pattern `(?m)^\*+\s` at one position.  (The detector loop always
`continue`s when this pattern matches, so it never classifies on its own;
it is embedded for completeness.) -/
def matchAtBullet (s : List Char) (atLS : Bool) : Bool :=
  atLS &&
    (let r := s.takeWhile (· = '*')
     !r.isEmpty &&
       match s.drop r.length with
       | w :: _ => isWsRe w
       | [] => false)

/-- Pattern `(?m)^#+\s+[^#]` at one position.  `\s` also matches a newline,
so with at least two whitespace characters after the hashes the final
`[^#]` can be satisfied by the second whitespace character itself. -/
def matchAtNumList (s : List Char) (atLS : Bool) : Bool :=
  atLS &&
    (let h := s.takeWhile (· = '#')
     !h.isEmpty &&
       (let rest := s.drop h.length
        let w := rest.takeWhile isWsRe
        !w.isEmpty &&
          (w.length ≥ 2 ||
            match rest.drop w.length with
            | c :: _ => c ≠ '#'
            | [] => false)))

/-- Result of `MatchString` of each detector pattern over the whole text. -/
def patHeadingWiki (t : List Char) : Bool := anySuffix matchAtHeadingWiki true t
def patMonospace (t : List Char) : Bool := anySuffix matchAtMonospace true t
def patCodeBlock (t : List Char) : Bool := anySuffix matchAtCodeBlock true t
def patNoformat (t : List Char) : Bool := anySuffix matchAtNoformat true t
def patQuote (t : List Char) : Bool := anySuffix matchAtQuote true t
def patPipeLink (t : List Char) : Bool := anySuffix matchAtPipeLink true t
def patImage (t : List Char) : Bool := anySuffix matchAtImage true t
def patBq (t : List Char) : Bool := anySuffix matchAtBq true t
def patBullet (t : List Char) : Bool := anySuffix matchAtBullet true t
def patNumList (t : List Char) : Bool := anySuffix matchAtNumList true t

/-- Function `looksLikeWikiNumberedList` (wiki.go): some line's trimmed form starts
with `"# "` or `"## "`, its remainder after stripping leading `'#'`/`' '`
characters is shorter than 80 characters and free of `'#'`, and at least
two lines' trimmed forms start with `'#'`. -/
def looksLikeWikiNumberedList (text : List Char) : Bool :=
  let lines := splitLines text
  lines.any fun line =>
    let trimmed := trimSpaceGo line
    ("# ".toList.isPrefixOf trimmed || "## ".toList.isPrefixOf trimmed) &&
      (let rest := trimmed.dropWhile (fun c => c = '#' || c = ' ')
       decide (rest.length < 80) && !rest.contains '#' &&
         decide (2 ≤ lines.countP (fun l => "#".toList.isPrefixOf (trimSpaceGo l))))

/-- Function `IsWikiMarkup` (wiki.go): the pattern table is scanned in order; a
match on the bullet pattern is skipped (`continue`), a match on the
numbered-list pattern classifies as wiki only when
`looksLikeWikiNumberedList` corroborates, any other match classifies as
wiki immediately. -/
def isWikiMarkup (text : List Char) : Bool :=
  if patHeadingWiki text || patMonospace text || patCodeBlock text ||
      patNoformat text || patQuote text || patPipeLink text ||
      patImage text || patBq text then
    true
  else if patNumList text && looksLikeWikiNumberedList text then
    true
  else
    false

/-! ### Wiki-to-markdown transcoder (wiki.go)

`WikiToMarkdown` is a fixed pipeline of `ReplaceAllString` /
`ReplaceAllStringFunc` passes.  Each pass is embedded as a left-to-right
scan (`replaceScan`): at each position a matcher decides whether the
pattern matches starting exactly there; on a match the replacement is
emitted and scanning resumes after the match (Go's successive
non-overlapping leftmost matches; none of the patterns can match the empty
string).  For every pattern in this file, greedy sub-expressions are
character classes whose terminator is excluded from the class, so the
leftmost-first match is computed without backtracking search. -/

/-- Class `[a-zA-Z0-9]` of the code-block language token. -/
def isAlnumGo (c : Char) : Bool :=
  ('a' ≤ c && c ≤ 'z') || ('A' ≤ c && c ≤ 'Z') || ('0' ≤ c && c ≤ '9')

/-- Function `strings.Join` with a separator. -/
def joinWith (sep : List Char) : List (List Char) → List Char
  | [] => []
  | [l] => l
  | l :: ls => l ++ sep ++ joinWith sep ls

/-- Earliest index at which `pat` starts in `s` (the lazy `(.*?)` search
for a closing token). -/
def indexOfSeq (pat : List Char) : List Char → Option Nat
  | [] => if pat.isPrefixOf ([] : List Char) then some 0 else none
  | c :: cs =>
      if pat.isPrefixOf (c :: cs) then some 0
      else
        match indexOfSeq pat cs with
        | some j => some (j + 1)
        | none => none

/-- Function `strings.TrimPrefix(s, "\n")`. -/
def trimPrefixNL : List Char → List Char
  | '\n' :: r => r
  | s => s

/-- Function `strings.TrimSuffix(s, "\n")`. -/
def trimSuffixNL (s : List Char) : List Char :=
  if s.getLast? = some '\n' then s.dropLast else s

/-- Generic replace-all scan.  `tf s atA = some (rep, k)` means the
pattern matches at the current position, consumes `k + 1` characters and
is replaced by `rep`.  `anchor` recomputes the line-start flag from the
character preceding a position (`(?m)^` uses `(· = '\n')`; patterns
anchored at the absolute start or not anchored at all use `fun _ => false`,
with the flag initially `true` at position 0). -/
def replaceScanGo (anchor : Char → Bool)
    (tf : List Char → Bool → Option (List Char × Nat)) : Nat → Bool → List Char → List Char
  | 0, _, s => s
  | _ + 1, _, [] => []
  | fuel + 1, atA, c :: cs =>
      match tf (c :: cs) atA with
      | some (rep, k) =>
          rep ++ replaceScanGo anchor tf fuel (anchor ((c :: cs).getD k c)) (cs.drop k)
      | none => c :: replaceScanGo anchor tf fuel (anchor c) cs

/-- Entry point of the scan.  Every step of `replaceScanGo` consumes at
least one character of the text, so a fuel of one more than the text
length always runs the scan to completion and the zero-fuel branch is
never reached; the fuel only makes the recursion structural. -/
def replaceScan (anchor : Char → Bool)
    (tf : List Char → Bool → Option (List Char × Nat)) (atA : Bool) (s : List Char) :
    List Char :=
  replaceScanGo anchor tf (s.length + 1) atA s

/-- Matcher for `(?m)^h<i>\.\s*(.*)$` (one heading level of
`convertWikiHeadings`).  The greedy `\s*` may also swallow newlines; the
`(.*)` then runs to the next newline or the end of the text, where the
multiline `$` always holds. -/
def tryHeading (i : Nat) (s : List Char) (atLS : Bool) : Option (List Char × Nat) :=
  if atLS then
    match s with
    | 'h' :: d :: '.' :: rest =>
        if d = Char.ofNat ('0'.toNat + i) then
          let ws := rest.takeWhile isWsRe
          let body := (rest.drop ws.length).takeWhile (· ≠ '\n')
          some (List.replicate i '#' ++ ' ' :: body, 3 + ws.length + body.length - 1)
        else none
    | _ => none
  else none

/-- Function `convertWikiHeadings` (wiki.go): six successive
`ReplaceAllString` passes, levels 1 through 6. -/
def convertWikiHeadings (s : List Char) : List Char :=
  [1, 2, 3, 4, 5, 6].foldl (fun acc i => replaceScan (· = '\n') (tryHeading i) true acc) s

/-- Match of `\{code(?::([a-zA-Z0-9]+))?\}(.*?)\{code\}` starting exactly
at the opening brace: returns the language capture, the lazy body capture
and the number of characters consumed. -/
def matchCodeAt (s : List Char) : Option (List Char × List Char × Nat) :=
  if ("\x7bcode".toList.isPrefixOf) s then
    let rest := s.drop 5
    let hdr : Option (List Char × Nat) :=
      match rest with
      | ':' :: u =>
          let run := u.takeWhile isAlnumGo
          if !run.isEmpty && (u.drop run.length).head? = some '}' then
            some (run, 1 + run.length + 1)
          else none
      | '}' :: _ => some ([], 1)
      | _ => none
    match hdr with
    | some (lang, hlen) =>
        let body := rest.drop hlen
        match indexOfSeq ("\x7bcode\x7d".toList) body with
        | some j => some (lang, body.take j, 5 + hlen + j + 6)
        | none => none
    | none => none
  else none

/-- Replacement emitted by the `convertWikiCodeBlocks` closure: the
captured prefix character, a fenced block with the language, and the body
trimmed of one leading and one trailing newline. -/
def codeBlockRep (pre lang content : List Char) : List Char :=
  pre ++ "```".toList ++ lang ++ '\n' :: trimSuffixNL (trimPrefixNL content) ++ "\n```".toList

/-- Matcher for `(?s)(^|[^{])\{code(?::([a-zA-Z0-9]+))?\}(.*?)\{code\}`.
The leading alternation prefers the absolute-start branch, else captures
one non-brace character before the opening token. -/
def tryCodeBlock (s : List Char) (atStart : Bool) : Option (List Char × Nat) :=
  let nonStart : Option (List Char × Nat) :=
    match s with
    | x :: rest =>
        if x ≠ '{' then
          match matchCodeAt rest with
          | some (lang, content, len) => some (codeBlockRep [x] lang content, 1 + len - 1)
          | none => none
        else none
    | [] => none
  if atStart then
    match matchCodeAt s with
    | some (lang, content, len) => some (codeBlockRep [] lang content, len - 1)
    | none => nonStart
  else nonStart

/-- Function `convertWikiCodeBlocks` (wiki.go). -/
def convertWikiCodeBlocks (s : List Char) : List Char :=
  replaceScan (fun _ => false) tryCodeBlock true s

/-- Matcher for `(?s)\{noformat\}(.*?)\{noformat\}` with its replacement
closure (plain fence, body trimmed of one leading/trailing newline). -/
def tryNoformat (s : List Char) (_ : Bool) : Option (List Char × Nat) :=
  if ("\x7bnoformat\x7d".toList.isPrefixOf) s then
    let body := s.drop 10
    match indexOfSeq ("\x7bnoformat\x7d".toList) body with
    | some j =>
        some ("```\n".toList ++ trimSuffixNL (trimPrefixNL (body.take j)) ++ "\n```".toList,
          10 + j + 10 - 1)
    | none => none
  else none

/-- Function `convertWikiNoformat` (wiki.go). -/
def convertWikiNoformat (s : List Char) : List Char :=
  replaceScan (fun _ => false) tryNoformat true s

/-- Matcher for `(?s)\{quote\}(.*?)\{quote\}` with its replacement closure:
the body is `TrimSpace`d and every line is prefixed with `"> "`. -/
def tryQuote (s : List Char) (_ : Bool) : Option (List Char × Nat) :=
  if ("\x7bquote\x7d".toList.isPrefixOf) s then
    let body := s.drop 7
    match indexOfSeq ("\x7bquote\x7d".toList) body with
    | some j =>
        some (joinWith ['\n']
            ((splitLines (trimSpaceGo (body.take j))).map (fun l => "> ".toList ++ l)),
          7 + j + 7 - 1)
    | none => none
  else none

/-- Function `convertWikiQuoteBlocks` (wiki.go). -/
def convertWikiQuoteBlocks (s : List Char) : List Char :=
  replaceScan (fun _ => false) tryQuote true s

/-- Matcher for `\{\{([^}]+)\}\}` replaced by a backtick span. -/
def tryMono (s : List Char) (_ : Bool) : Option (List Char × Nat) :=
  match s with
  | '{' :: '{' :: rest =>
      let r := rest.takeWhile (· ≠ '}')
      if !r.isEmpty && "\x7d\x7d".toList.isPrefixOf (rest.drop r.length) then
        some ('`' :: r ++ ['`'], 2 + r.length + 2 - 1)
      else none
  | _ => none

/-- Function `convertWikiMonospace` (wiki.go). -/
def convertWikiMonospace (s : List Char) : List Char :=
  replaceScan (fun _ => false) tryMono true s

/-- Matcher for `\[([^\]|]+)\|([^\]]+)\]` replaced by `[$1]($2)`. -/
def tryLinkConv (s : List Char) (_ : Bool) : Option (List Char × Nat) :=
  match s with
  | '[' :: rest =>
      let r1 := rest.takeWhile (fun c => c ≠ ']' && c ≠ '|')
      if r1.isEmpty then none
      else
        match rest.drop r1.length with
        | '|' :: rest2 =>
            let r2 := rest2.takeWhile (· ≠ ']')
            if !r2.isEmpty && (rest2.drop r2.length).head? = some ']' then
              some ('[' :: r1 ++ "](".toList ++ r2 ++ [')'],
                1 + r1.length + 1 + r2.length + 1 - 1)
            else none
        | _ => none
  | _ => none

/-- Function `convertWikiLinks` (wiki.go). -/
def convertWikiLinks (s : List Char) : List Char :=
  replaceScan (fun _ => false) tryLinkConv true s

/-- Replacement emitted by the `convertWikiImages` closure. -/
def imageRep (src attrs : List Char) : List Char :=
  "![".toList ++ (if ("alt=".toList.isPrefixOf) attrs then attrs.drop 4 else []) ++
    "](".toList ++ src ++ [')']

/-- Matcher for `!([^\s!|]+)(?:\|([^!]+))?!` with its replacement
closure. -/
def tryImageConv (s : List Char) (_ : Bool) : Option (List Char × Nat) :=
  match s with
  | '!' :: rest =>
      let r1 := rest.takeWhile (fun c => !isWsRe c && c ≠ '!' && c ≠ '|')
      if r1.isEmpty then none
      else
        match rest.drop r1.length with
        | '!' :: _ => some (imageRep r1 [], 1 + r1.length + 1 - 1)
        | '|' :: rest2 =>
            let r2 := rest2.takeWhile (· ≠ '!')
            if !r2.isEmpty && (rest2.drop r2.length).head? = some '!' then
              some (imageRep r1 r2, 1 + r1.length + 1 + r2.length + 1 - 1)
            else none
        | _ => none
  | _ => none

/-- Function `convertWikiImages` (wiki.go). -/
def convertWikiImages (s : List Char) : List Char :=
  replaceScan (fun _ => false) tryImageConv true s

/-- Validity of the capture group `([^\s X][^ X]*[^\s X]|[^\s X])` common
to the decoration patterns (with `X` the delimiter, excluded from all
classes): a non-empty delimiter-free run whose first and last characters
are not whitespace. -/
def decorRunOk (r : List Char) : Bool :=
  match r.head?, r.getLast? with
  | some a, some b => !isWsRe a && !isWsRe b
  | _, _ => false

/-- Core of the strikethrough pattern starting at its first dash:
`-([^\s-][^-]*[^\s-]|[^\s-])-` followed by `(?:[^-]|$)`.  Returns the
inner capture, the consumed length from the dash on, and the consumed
trailing character (if the `[^-]` branch of the trailer fired). -/
def strikeCore (s : List Char) : Option (List Char × Nat × List Char) :=
  match s with
  | '-' :: rest =>
      let r := rest.takeWhile (· ≠ '-')
      if decorRunOk r then
        match rest.drop r.length with
        | '-' :: tl =>
            match tl with
            | [] => some (r, 1 + r.length + 1, [])
            | c :: _ => if c ≠ '-' then some (r, 1 + r.length + 1 + 1, [c]) else none
        | _ => none
      else none
  | _ => none

/-- Replacement emitted by the strikethrough closure: the non-dash
characters captured around the match are re-emitted, the dashes become
`~~`. -/
def strikeRep (pre inner sfx : List Char) : List Char :=
  pre ++ "~~".toList ++ inner ++ "~~".toList ++ sfx

/-- Matcher for `(?:^|[^-])-([^\s-][^-]*[^\s-]|[^\s-])-(?:[^-]|$)` with its
replacement closure.  `^`/`$` are absolute (no multiline flag). -/
def tryStrike (s : List Char) (atStart : Bool) : Option (List Char × Nat) :=
  let nonStart : Option (List Char × Nat) :=
    match s with
    | x :: rest =>
        if x ≠ '-' then
          match strikeCore rest with
          | some (inner, len, sfx) => some (strikeRep [x] inner sfx, 1 + len - 1)
          | none => none
        else none
    | [] => none
  if atStart then
    match strikeCore s with
    | some (inner, len, sfx) => some (strikeRep [] inner sfx, len - 1)
    | none => nonStart
  else nonStart

/-- Matcher for a symmetric decoration pattern
`X([^\s X][^ X]*[^\s X]|[^\s X])X` (underline `+`, subscript `~`,
superscript `^`), with the replacement `open $1 close`. -/
def tryDecor (delim : Char) (opn cls : List Char) (s : List Char) (_ : Bool) :
    Option (List Char × Nat) :=
  match s with
  | c :: rest =>
      if c = delim then
        let r := rest.takeWhile (· ≠ delim)
        if decorRunOk r && (rest.drop r.length).head? = some delim then
          some (opn ++ r ++ cls, 1 + r.length + 1 - 1)
        else none
      else none
  | [] => none

/-- Matcher for `\?\?([^?]+)\?\?` replaced by a cite element. -/
def tryCite (s : List Char) (_ : Bool) : Option (List Char × Nat) :=
  match s with
  | '?' :: '?' :: rest =>
      let r := rest.takeWhile (· ≠ '?')
      if !r.isEmpty && "??".toList.isPrefixOf (rest.drop r.length) then
        some ("<cite>".toList ++ r ++ "</cite>".toList, 2 + r.length + 2 - 1)
      else none
  | _ => none

/-- Function `convertWikiTextFormatting` (wiki.go): strikethrough,
underline, subscript, superscript, citation — in that order. -/
def convertWikiTextFormatting (s : List Char) : List Char :=
  let s1 := replaceScan (fun _ => false) tryStrike true s
  let s2 := replaceScan (fun _ => false) (tryDecor '+' "<u>".toList ("</u>".toList)) true s1
  let s3 := replaceScan (fun _ => false) (tryDecor '~' "<sub>".toList ("</sub>".toList)) true s2
  let s4 := replaceScan (fun _ => false) (tryDecor '^' "<sup>".toList ("</sup>".toList)) true s3
  replaceScan (fun _ => false) tryCite true s4

/-- Matcher for `(?m)^bq\.\s*(.*)$` replaced by `> $1`. -/
def tryBq (s : List Char) (atLS : Bool) : Option (List Char × Nat) :=
  if atLS then
    match s with
    | 'b' :: 'q' :: '.' :: rest =>
        let ws := rest.takeWhile isWsRe
        let body := (rest.drop ws.length).takeWhile (· ≠ '\n')
        some ("> ".toList ++ body, 3 + ws.length + body.length - 1)
    | _ => none
  else none

/-- Function `convertWikiBlockquotes` (wiki.go). -/
def convertWikiBlockquotes (s : List Char) : List Char :=
  replaceScan (· = '\n') tryBq true s

/-- Function `convertWikiListLine` (wiki.go): strip the `" \t"` indent,
rewrite `* ` / `** ` / `*** ` bullets to dashes with 0/2/4 extra spaces,
re-attach the indent; anything else (including `#` numbered lists, which
are intentionally left alone) passes through. -/
def convertWikiListLine (line : List Char) : List Char :=
  let trimmed := line.dropWhile (fun c => c = ' ' || c = '\t')
  let indent := line.take (line.length - trimmed.length)
  if ("* ".toList.isPrefixOf) trimmed then indent ++ "- ".toList ++ trimmed.drop 2
  else if ("** ".toList.isPrefixOf) trimmed then indent ++ "  - ".toList ++ trimmed.drop 3
  else if ("*** ".toList.isPrefixOf) trimmed then indent ++ "    - ".toList ++ trimmed.drop 4
  else line

/-- Function `convertWikiLists` (wiki.go): per-line rewrite. -/
def convertWikiLists (s : List Char) : List Char :=
  joinWith ['\n'] ((splitLines s).map convertWikiListLine)

/-- Matcher for `(?m)^----+$` replaced by `---`: a line consisting of four
or more hyphens and nothing else. -/
def tryRule (s : List Char) (atLS : Bool) : Option (List Char × Nat) :=
  if atLS then
    let r := s.takeWhile (· = '-')
    if 4 ≤ r.length &&
        (match (s.drop r.length).head? with
         | none => true
         | some c => c = '\n') then
      some ("---".toList, r.length - 1)
    else none
  else none

/-- Function `convertWikiHorizontalRules` (wiki.go). -/
def convertWikiHorizontalRules (s : List Char) : List Char :=
  replaceScan (· = '\n') tryRule true s

/-- Function `WikiToMarkdown` (wiki.go): empty input short-circuits, then
the eleven rewrite passes run in their fixed order. -/
def wikiToMarkdown (wiki : List Char) : List Char :=
  if wiki = [] then []
  else
    convertWikiHorizontalRules
      (convertWikiLists
        (convertWikiBlockquotes
          (convertWikiTextFormatting
            (convertWikiImages
              (convertWikiLinks
                (convertWikiMonospace
                  (convertWikiQuoteBlocks
                    (convertWikiNoformat
                      (convertWikiCodeBlocks
                        (convertWikiHeadings wiki))))))))))

/-! ### Markdown converter (api/markdown.go)

`MarkdownToADF` parses the input with the third-party goldmark CommonMark
parser (table extension enabled, strikethrough extension NOT enabled) and
walks the resulting syntax tree.  The goldmark AST is embedded as the
closed inductive `MDNode`; the repository's conversion walk over it is
embedded function by function.  Code-block nodes carry their raw line
segments (each segment includes its terminating newline, as `Lines()`
segments do); `text` leaves carry the segment value and the
`SoftLineBreak` flag. -/

/-- Node type of the goldmark AST, as consumed by the conversion walk. -/
inductive MDNode where
  | heading (level : Nat) (children : List MDNode)
  | paragraph (children : List MDNode)
  | codeBlock (lines : List (List Char))
  | fencedCodeBlock (language : List Char) (lines : List (List Char))
  | list (ordered : Bool) (children : List MDNode)
  | listItem (children : List MDNode)
  | textBlock (children : List MDNode)
  | blockquote (children : List MDNode)
  | thematicBreak
  | table (children : List MDNode)
  | tableHeader (children : List MDNode)
  | tableRow (children : List MDNode)
  | tableCell (children : List MDNode)
  | text (seg : List Char) (soft : Bool)
  | strNode (value : List Char)
  | emphasis (level : Nat) (children : List MDNode)
  | codeSpan (children : List MDNode)
  | link (dest : List Char) (children : List MDNode)
  | autoLink (url : List Char)
  | rawHTML
  | image (title : List Char) (dest : List Char)
deriving Repr

/-- Update performed by `applyMark` on one node: append the mark to the
node's mark list. -/
def ADFNode.addMark (n : ADFNode) (m : ADFMark) : ADFNode :=
  match n with
  | .mk t tx c a ms => .mk t tx c a (ms ++ [m])

/-- Function `applyMark` (markdown.go): attach a mark (type plus optional
attributes) to every node of the list. -/
def applyMark (nodes : List ADFNode) (markType : List Char)
    (attrs : List (List Char × JSONVal)) : List ADFNode :=
  nodes.map (fun n => n.addMark ⟨markType, attrs⟩)

/-- Text accumulated by the `CodeSpan` case of `convertInlineNode`: the
concatenated segments of the span's `Text` children. -/
def codeSpanText : List MDNode → List Char
  | [] => []
  | .text seg _ :: rest => seg ++ codeSpanText rest
  | _ :: rest => codeSpanText rest

mutual

/-- Function `convertInlineNode` (markdown.go).  The final cases are the
Go `default` branch ("for unknown inline nodes, try to extract text from
children"), spelled out per constructor. -/
def convertInlineNode : MDNode → List ADFNode
  | .text seg soft =>
      if seg = [] then []
      else
        if soft then
          [ADFNode.mk ("text".toList) seg [] [] [], ADFNode.mk ("text".toList) [' '] [] [] []]
        else [ADFNode.mk ("text".toList) seg [] [] []]
  | .strNode v =>
      if v = [] then [] else [ADFNode.mk ("text".toList) v [] [] []]
  | .emphasis lvl cs =>
      applyMark (convertInlineContent cs) (if lvl = 2 then ("strong".toList) else ("em".toList)) []
  | .codeSpan cs =>
      [ADFNode.mk ("text".toList) (codeSpanText cs) [] [] [⟨"code".toList, []⟩]]
  | .link dest cs =>
      applyMark (convertInlineContent cs) ("link".toList) [("href".toList, JSONVal.str dest)]
  | .autoLink url =>
      [ADFNode.mk ("text".toList) url [] []
        [⟨"link".toList, [("href".toList, JSONVal.str url)]⟩]]
  | .rawHTML => []
  | .image title dest =>
      [ADFNode.mk ("text".toList) title [] []
        [⟨"link".toList, [("href".toList, JSONVal.str dest)]⟩]]
  | .heading _ cs => convertInlineContent cs
  | .paragraph cs => convertInlineContent cs
  | .list _ cs => convertInlineContent cs
  | .listItem cs => convertInlineContent cs
  | .textBlock cs => convertInlineContent cs
  | .blockquote cs => convertInlineContent cs
  | .table cs => convertInlineContent cs
  | .tableHeader cs => convertInlineContent cs
  | .tableRow cs => convertInlineContent cs
  | .tableCell cs => convertInlineContent cs
  | .codeBlock _ => []
  | .fencedCodeBlock _ _ => []
  | .thematicBreak => []

/-- Function `convertInlineContent` (markdown.go): concatenation of the
per-child inline conversions. -/
def convertInlineContent : List MDNode → List ADFNode
  | [] => []
  | n :: ns => convertInlineNode n ++ convertInlineContent ns

end

mutual

/-- Function `convertNode` (markdown.go): block-level dispatch; node kinds
outside the switch convert to nothing. -/
def convertNode : MDNode → Option ADFNode
  | .heading lvl cs =>
      some (.mk ("heading".toList) [] (convertInlineContent cs)
        [("level".toList, JSONVal.num (lvl : Int))] [])
  | .paragraph cs => convertParagraph cs
  | .codeBlock lines =>
      some (.mk ("codeBlock".toList) []
        [.mk ("text".toList) (trimSuffixNL lines.flatten) [] [] []] [] [])
  | .fencedCodeBlock lang lines =>
      some (.mk ("codeBlock".toList) []
        [.mk ("text".toList) (trimSuffixNL lines.flatten) [] [] []]
        (if lang = [] then [] else [("language".toList, JSONVal.str lang)]) [])
  | .list ordered cs => some (convertList ordered cs)
  | .blockquote cs => some (.mk ("blockquote".toList) [] (convertBlockquoteContent cs) [] [])
  | .thematicBreak => some (.mk ("rule".toList) [] [] [] [])
  | .table cs => some (.mk ("table".toList) [] (convertTableRows cs) [] [])
  | _ => none

/-- Function `convertNodes` (markdown.go): convert each child, dropping
the nils. -/
def convertNodes : List MDNode → List ADFNode
  | [] => []
  | n :: ns =>
      match convertNode n with
      | some x => x :: convertNodes ns
      | none => convertNodes ns

/-- Function `convertParagraph` (markdown.go): a paragraph whose inline
conversion is empty is dropped. -/
def convertParagraph (cs : List MDNode) : Option ADFNode :=
  let content := convertInlineContent cs
  if content.isEmpty then none
  else some (.mk ("paragraph".toList) [] content [] [])

/-- Function `convertList` (markdown.go): `bulletList` or `orderedList`
with the converted `ListItem` children. -/
def convertList (ordered : Bool) (cs : List MDNode) : ADFNode :=
  .mk (if ordered then ("orderedList".toList) else ("bulletList".toList)) []
    (convertListItems cs) [] []

/-- The child loop of `convertList`: only `ListItem` children are kept. -/
def convertListItems : List MDNode → List ADFNode
  | [] => []
  | .listItem cs :: ns => convertListItem cs :: convertListItems ns
  | _ :: ns => convertListItems ns

/-- Function `convertListItem` (markdown.go), over the item's children. -/
def convertListItem (cs : List MDNode) : ADFNode :=
  .mk ("listItem".toList) [] (listItemContent cs) [] []

/-- The child loop of `convertListItem`: a `TextBlock` child's non-empty
inline content is wrapped in a paragraph, a `Paragraph` child converts via
`convertParagraph`, a nested `List` recurses, anything else is skipped. -/
def listItemContent : List MDNode → List ADFNode
  | [] => []
  | .textBlock cs :: ns =>
      let inline := convertInlineContent cs
      (if inline.isEmpty then []
       else [ADFNode.mk ("paragraph".toList) [] inline [] []]) ++ listItemContent ns
  | .paragraph cs :: ns =>
      (match convertParagraph cs with
       | some p => [p]
       | none => []) ++ listItemContent ns
  | .list ordered cs :: ns => convertList ordered cs :: listItemContent ns
  | _ :: ns => listItemContent ns

/-- The child loop of `convertBlockquote` (markdown.go): only `Paragraph`
children are converted. -/
def convertBlockquoteContent : List MDNode → List ADFNode
  | [] => []
  | .paragraph cs :: ns =>
      (match convertParagraph cs with
       | some p => [p]
       | none => []) ++ convertBlockquoteContent ns
  | _ :: ns => convertBlockquoteContent ns

/-- The child loop of `convertTable` (markdown.go): `TableHeader` children
become header rows, `TableRow` children body rows. -/
def convertTableRows : List MDNode → List ADFNode
  | [] => []
  | .tableHeader cs :: ns => convertTableRow cs true :: convertTableRows ns
  | .tableRow cs :: ns => convertTableRow cs false :: convertTableRows ns
  | _ :: ns => convertTableRows ns

/-- Function `convertTableRow` (markdown.go), over the row's children. -/
def convertTableRow (cs : List MDNode) (isHeader : Bool) : ADFNode :=
  .mk ("tableRow".toList) [] (convertTableCells cs isHeader) [] []

/-- The cell loop of `convertTableRow`: only `TableCell` children are
kept; a cell's non-empty inline content is wrapped in a paragraph, an
empty one yields an empty child list. -/
def convertTableCells : List MDNode → Bool → List ADFNode
  | [], _ => []
  | .tableCell cs :: ns, isHeader =>
      (let content := convertInlineContent cs
       ADFNode.mk (if isHeader then ("tableHeader".toList) else ("tableCell".toList)) []
        (if content.isEmpty then []
         else [ADFNode.mk ("paragraph".toList) [] content [] []]) [] [])
      :: convertTableCells ns isHeader
  | _ :: ns, isHeader => convertTableCells ns isHeader

end

/-! ### The goldmark parse, modelled for a restricted fragment

The parser itself is the third-party goldmark library, not code of this
repository; only its output AST is consumed by `markdown.go`.  For claims
that quantify over raw markdown strings it is modelled, per the spec's
description of the grammar, on the fragment actually used by those claims:
blank-line-separated paragraphs of plain text (lines joined by soft line
breaks) and the single-line `***w***` emphasis form. -/

/-- Blank line in the CommonMark sense: only spaces and tabs. -/
def lineBlank (l : List Char) : Bool :=
  l.all (fun c => c = ' ' || c = '\t')

/-- Accumulating loop splitting a line list into maximal runs of
non-blank lines. -/
def paraGroupsGo : List (List Char) → List (List Char) → List (List (List Char))
  | acc, [] => if acc.isEmpty then [] else [acc.reverse]
  | acc, l :: ls =>
      if lineBlank l then
        if acc.isEmpty then paraGroupsGo [] ls else acc.reverse :: paraGroupsGo [] ls
      else paraGroupsGo (l :: acc) ls

/-- Paragraph grouping: maximal runs of non-blank lines. -/
def paraGroups (ls : List (List Char)) : List (List (List Char)) :=
  paraGroupsGo [] ls

/-- Inline content of a plain paragraph: one `Text` segment per line, the
`SoftLineBreak` flag set on every segment but the last. -/
def inlineOfLines : List (List Char) → List MDNode
  | [] => []
  | [l] => [.text l false]
  | l :: ls => .text l true :: inlineOfLines ls

/-- Recognizer for the single-line `***w***` form (CommonMark parses it as
emphasis around strong emphasis): the delimiter runs are exactly three
asterisks and the inner run is non-empty, asterisk-free and not
whitespace-flanked. -/
def tripleEmph : List (List Char) → Option (List Char)
  | [l] =>
      let w := (l.drop 3).take (l.length - 6)
      if 7 ≤ l.length && "***".toList.isPrefixOf l && "***".toList.isPrefixOf l.reverse &&
          !w.contains '*' &&
          (match w.head?, w.getLast? with
           | some a, some b => !isWsGo a && !isWsGo b
           | _, _ => false) then
        some w
      else none
  | _ => none

/-- Modelled from the spec: the goldmark CommonMark parse
(`md.Parser().Parse`), which is a third-party dependency whose source is
not part of this repository, restricted to the fragment the claims
exercise — blank-line-separated paragraphs of plain text with soft line
breaks between lines, plus the `***w***` emphasis-in-strong form.  Inputs
outside this fragment (leading/trailing line whitespace, other markdown
constructs) are NOT faithfully parsed by this model, and theorems about
`markdownToADF` on raw strings carry hypotheses confining the input to the
fragment (or use inputs, such as whitespace-only strings, on which the
model agrees with goldmark in producing no blocks). -/
def parseModel (s : List Char) : List MDNode :=
  (paraGroups (splitLines s)).map fun g =>
    match tripleEmph g with
    | some w => .paragraph [.emphasis 1 [.emphasis 2 [.text w false]]]
    | none => .paragraph (inlineOfLines g)

/-- Function `MarkdownToADF` (markdown.go): empty input yields the absent
document; a walk producing no content yields the fallback single-paragraph
document holding the raw input; otherwise the converted content is wrapped
in a version-1 `doc`. -/
def markdownToADF (markdown : List Char) : Option ADFDocument :=
  if markdown = [] then none
  else
    let content := convertNodes (parseModel markdown)
    if content.isEmpty then
      some ⟨"doc".toList, 1,
        [.mk ("paragraph".toList) [] [.mk ("text".toList) markdown [] [] []] [] []]⟩
    else some ⟨"doc".toList, 1, content⟩

/-! ### Claim-side predicates

Definitions in this section are written from the words of the spec and of
the claims (not from the source), for use in claim statements. -/

/-- Characters that are inert for the CommonMark grammar: they can start
no block construct and no inline construct.  Used to delimit the
plain-paragraph fragment of claim C1. -/
def plainChar (c : Char) : Bool :=
  c.isAlpha || c = ' ' || c = ',' || c = '.' || c = ';' || c = ':'

/-- Line of the plain-paragraph fragment: non-empty, all characters inert,
no leading or trailing space. -/
def goodPlainLine (l : List Char) : Bool :=
  !l.isEmpty && l.all plainChar &&
    (match l.head?, l.getLast? with
     | some a, some b => a ≠ ' ' && b ≠ ' '
     | _, _ => false)

/-- Soft-break normalization of claim C1: each newline becomes a space. -/
def nlToSpace (c : Char) : Char :=
  if c = '\n' then ' ' else c

/-- Claim C3's wording of a qualifying line: it starts with a single or
double `#` followed by a run of fewer than 80 characters containing no
further `#`. -/
def claimSingleOrDoubleHash (l : List Char) : Bool :=
  (match l with
   | '#' :: r => decide (r.length < 80) && !r.contains '#'
   | _ => false) ||
  (match l with
   | '#' :: '#' :: r => decide (r.length < 80) && !r.contains '#'
   | _ => false)

/-- Claim C3's detection predicate: at least two qualifying lines. -/
def claimTwoHashLines (t : List Char) : Bool :=
  decide (2 ≤ (splitLines t).countP claimSingleOrDoubleHash)

/-- Amended wording for claim C3, restated independently of the source
loop: the raw text matches the numbered-list pattern at some line start,
some line's trimmed form starts with `"# "` or `"## "` and its remainder
after stripping leading `#`/space characters is shorter than 80 characters
and hash-free, and at least two lines' trimmed forms start with `#`. -/
def specHashTrigger (t : List Char) : Bool :=
  patNumList t &&
    ((splitLines t).any fun l =>
      let tr := trimSpaceGo l
      ("# ".toList.isPrefixOf tr || "## ".toList.isPrefixOf tr) &&
        (let rest := tr.dropWhile (fun c => c = '#' || c = ' ')
         decide (rest.length < 80) && !rest.contains '#')) &&
    decide (2 ≤ ((splitLines t).filter
      (fun l => "#".toList.isPrefixOf (trimSpaceGo l))).length)

/-- Values of claim C4's scope: neither a plain JSON string nor a
structured document (object or null), i.e. a number, array or boolean. -/
def neitherStringNorDocument : JSONVal → Bool
  | .num _ => true
  | .arr _ => true
  | .boolV _ => true
  | _ => false

/-- Mark types the converter may emit, per claim C10. -/
def allowedMarkTypes : List (List Char) :=
  ["em".toList, "strong".toList, "code".toList, "link".toList]

/-- Good mark, per claim C10: one of the four allowed types, and only a
`link` mark carries attributes — a single `href` holding a string. -/
def goodMark (m : ADFMark) : Prop :=
  m.type ∈ allowedMarkTypes ∧
    (m.attrs = [] ∨
      (m.type = "link".toList ∧ ∃ h, m.attrs = [("href".toList, JSONVal.str h)]))

/-- All marks of a node and of its descendants are good. -/
inductive NodeGood : ADFNode → Prop where
  | intro : ∀ (t tx : List Char) (c : List ADFNode) (a : List (List Char × JSONVal))
      (ms : List ADFMark),
      (∀ m ∈ ms, goodMark m) → (∀ n ∈ c, NodeGood n) → NodeGood (.mk t tx c a ms)

/-- Claim C8's wording of a converted table cell: typed `tableHeader` in
the header row and `tableCell` elsewhere, its inline content wrapped in
one synthetic paragraph, or an empty child list when there is no inline
content. -/
def claimCellNode (isHeader : Bool) (cs : List MDNode) : ADFNode :=
  .mk (if isHeader then ("tableHeader".toList) else ("tableCell".toList)) []
    (if (convertInlineContent cs).isEmpty then []
     else [.mk ("paragraph".toList) [] (convertInlineContent cs) [] []]) [] []

/-- Whitespace indents for claim C6, encoded delimiter-free: `true` is a
space, `false` a tab. -/
def wsIndent (bs : List Bool) : List Char :=
  bs.map (fun b => if b then ' ' else '\t')

/-! ### Specification-side rendering of the plain-text extractor (claim C9)

Written from the spec's words, to be compared with `extractText`: a
depth-first walk that emits every node's text payload verbatim (marks and
attributes ignored) and appends exactly one newline after each node of type
`paragraph` or `hardBreak`. -/

mutual

/-- Spec wording of the plain-text extraction walk over a node list. -/
def plainTextSpecWalk : List ADFNode → List Char
  | [] => []
  | n :: ns => plainTextSpecNode n ++ plainTextSpecWalk ns

/-- Spec wording of the plain-text extraction of one node: the text
payload verbatim, the children in document order, and exactly one newline
after a `paragraph` or `hardBreak` node. -/
def plainTextSpecNode : ADFNode → List Char
  | .mk t tx c _ _ =>
      tx ++ plainTextSpecWalk c ++
      (if t = "paragraph".toList ∨ t = "hardBreak".toList then ['\n'] else [])

end

mutual

theorem extractText_eq_spec : ∀ ns : List ADFNode, extractText ns = plainTextSpecWalk ns
  | [] => rfl
  | n :: ns => by
      rw [extractText, plainTextSpecWalk, extractNodeText_eq_spec n, extractText_eq_spec ns]

theorem extractNodeText_eq_spec : ∀ n : ADFNode, extractNodeText n = plainTextSpecNode n
  | .mk t tx c a m => by
      have h1 : (if tx ≠ [] then tx else []) = tx := by split <;> simp_all
      have h2 : (if c.length > 0 then extractText c else []) = extractText c := by
        cases c <;> simp [extractText]
      rw [extractNodeText, plainTextSpecNode, h1, h2, extractText_eq_spec c]

end

/-! ### Helper lemmas -/

theorem wsIndent_dropWhile (bs : List Bool) {x : Char}
    (hx : (x = ' ' || x = '\t') = false) (r : List Char) :
    (wsIndent bs ++ x :: r).dropWhile (fun c => c = ' ' || c = '\t') = x :: r := by
  induction bs with
  | nil => simp [wsIndent, List.dropWhile, hx]
  | cons b t ih => cases b <;> simpa [wsIndent, List.dropWhile] using ih

theorem wsIndent_take (bs : List Bool) (t : List Char) :
    (wsIndent bs ++ t).take ((wsIndent bs ++ t).length - t.length) = wsIndent bs := by
  have h : (wsIndent bs ++ t).length - t.length = (wsIndent bs).length := by
    simp [List.length_append]
  rw [h, List.take_left]

theorem marks_addMark (n : ADFNode) (m : ADFMark) :
    (n.addMark m).marks = n.marks ++ [m] := by
  cases n; rfl

theorem list_any_and_const {α : Type} (xs : List α) (f : α → Bool) (c : Bool) :
    (xs.any fun x => f x && c) = (xs.any f && c) := by
  induction xs with
  | nil => simp
  | cons x t ih => cases c <;> simp_all

theorem numList_heuristic_eq_spec (t : List Char) :
    (patNumList t && looksLikeWikiNumberedList t) = specHashTrigger t := by
  simp only [looksLikeWikiNumberedList, specHashTrigger, List.countP_eq_length_filter,
    ← Bool.and_assoc, list_any_and_const]

theorem splitLines_ne_nil : ∀ s : List Char, splitLines s ≠ []
  | [] => by simp [splitLines]
  | c :: t => by
      have ih := splitLines_ne_nil t
      simp only [splitLines]
      split
      · simp
      · cases h : splitLines t with
        | nil => exact absurd h ih
        | cons l ls => simp [h]

theorem joinWith_cons_cons (sep : List Char) (a b : List Char) (t : List (List Char)) :
    joinWith sep (a :: b :: t) = a ++ sep ++ joinWith sep (b :: t) := rfl

theorem joinWith_cons_head (sep : List Char) (c : Char) (h : List Char)
    (t : List (List Char)) :
    joinWith sep ((c :: h) :: t) = c :: joinWith sep (h :: t) := by
  cases t <;> simp [joinWith]

theorem map_nlToSpace_eq_joinWith : ∀ s : List Char,
    s.map nlToSpace = joinWith [' '] (splitLines s) := by
  intro s
  induction s with
  | nil => simp [splitLines, joinWith]
  | cons c t ih =>
      by_cases hc : c = '\n'
      · subst hc
        simp only [splitLines, if_pos rfl, List.map_cons]
        cases h : splitLines t with
        | nil => exact absurd h (splitLines_ne_nil t)
        | cons l ls =>
            have hmap : List.map nlToSpace t = joinWith [' '] (l :: ls) := by rw [ih, h]
            simp [joinWith, nlToSpace, hmap]
      · simp only [splitLines, if_neg hc, List.map_cons]
        cases h : splitLines t with
        | nil => exact absurd h (splitLines_ne_nil t)
        | cons l ls =>
            have hmap : List.map nlToSpace t = joinWith [' '] (l :: ls) := by rw [ih, h]
            simp [h, joinWith_cons_head, nlToSpace, hc, hmap]

theorem goodPlainLine_ne_nil {l : List Char} (h : goodPlainLine l = true) : l ≠ [] := by
  intro he; subst he; simp [goodPlainLine] at h

theorem goodPlainLine_all_plain {l : List Char} (h : goodPlainLine l = true) :
    l.all plainChar = true := by
  simp only [goodPlainLine, Bool.and_eq_true] at h
  exact h.1.2

theorem goodPlainLine_not_blank {l : List Char} (h : goodPlainLine l = true) :
    lineBlank l = false := by
  cases l with
  | nil => simp [goodPlainLine] at h
  | cons a t =>
      simp only [goodPlainLine, Bool.and_eq_true, List.all_cons, List.head?_cons] at h
      obtain ⟨⟨-, hpa, -⟩, hm⟩ := h
      have hat : a ≠ '\t' := by
        intro he; subst he; exact absurd hpa (by decide)
      have has : a ≠ ' ' := by
        rcases hms : (a :: t).getLast? with _ | b
        · rw [hms] at hm; simp at hm
        · rw [hms] at hm
          simp only [Bool.and_eq_true, decide_eq_true_eq] at hm
          exact hm.1
      simp [lineBlank, has, hat]

theorem paraGroupsGo_nonblank : ∀ (ls : List (List Char)) (acc : List (List Char)),
    (∀ l ∈ ls, lineBlank l = false) →
    paraGroupsGo acc ls =
      if acc.isEmpty && ls.isEmpty then [] else [acc.reverse ++ ls] := by
  intro ls
  induction ls with
  | nil => intro acc h; cases acc <;> simp [paraGroupsGo]
  | cons l t ih =>
      intro acc h
      have hl : lineBlank l = false := h l (List.mem_cons_self l t)
      simp only [paraGroupsGo, hl, Bool.false_eq_true, if_false]
      rw [ih (l :: acc) (fun x hx => h x (List.mem_cons_of_mem l hx))]
      simp [List.reverse_cons, List.append_assoc]

theorem if_ne_nil_eq (tx : List Char) : (if tx ≠ [] then tx else []) = tx := by
  split <;> simp_all

theorem text_type_no_newline :
    ¬("text".toList = "paragraph".toList ∨ "text".toList = "hardBreak".toList) := by
  decide

theorem extractNodeText_text (tx : List Char) (ms : List ADFMark) :
    extractNodeText (.mk ("text".toList) tx [] [] ms) = tx := by
  simp [extractNodeText, if_ne_nil_eq, text_type_no_newline]

theorem extractText_append (xs ys : List ADFNode) :
    extractText (xs ++ ys) = extractText xs ++ extractText ys := by
  induction xs with
  | nil => simp [extractText]
  | cons n ns ih => simp [extractText, ih, List.append_assoc]

theorem extract_inline_good : ∀ ls : List (List Char), (∀ l ∈ ls, l ≠ []) → ls ≠ [] →
    convertInlineContent (inlineOfLines ls) ≠ [] ∧
    extractText (convertInlineContent (inlineOfLines ls)) = joinWith [' '] ls := by
  intro ls
  induction ls with
  | nil => intro _ h; exact absurd rfl h
  | cons l t ih =>
      intro hgood _
      have hl : l ≠ [] := hgood l (List.mem_cons_self l t)
      cases t with
      | nil =>
          have e0 : convertInlineContent (inlineOfLines [l]) =
              [ADFNode.mk ("text".toList) l [] [] []] := by
            simp [inlineOfLines, convertInlineContent, convertInlineNode, hl]
          constructor
          · simp [e0]
          · rw [e0]
            simp only [extractText, List.append_nil]
            rw [extractNodeText_text]
            simp [joinWith]
      | cons l2 t2 =>
          obtain ⟨ih1, ih2⟩ :=
            ih (fun x hx => hgood x (List.mem_cons_of_mem l hx)) (by simp)
          have e1 : convertInlineContent (inlineOfLines (l :: l2 :: t2)) =
              ADFNode.mk ("text".toList) l [] [] [] ::
              ADFNode.mk ("text".toList) [' '] [] [] [] ::
              convertInlineContent (inlineOfLines (l2 :: t2)) := by
            simp [inlineOfLines, convertInlineContent, convertInlineNode, hl]
          constructor
          · simp [e1]
          · rw [e1]
            simp only [extractText]
            rw [extractNodeText_text, extractNodeText_text, ih2, joinWith_cons_cons]
            simp [List.append_assoc]

theorem tripleEmph_none_of_plain : ∀ g : List (List Char),
    (∀ l ∈ g, l.all plainChar = true) → tripleEmph g = none := by
  intro g h
  cases g with
  | nil => rfl
  | cons l t =>
      cases t with
      | cons l2 t2 => rfl
      | nil =>
          have hall : l.all plainChar = true := h l (List.mem_cons_self l [])
          cases l with
          | nil => decide
          | cons c cl =>
              have hc : plainChar c = true := by
                simp only [List.all_cons, Bool.and_eq_true] at hall
                exact hall.1
              have hcs : c ≠ '*' := by
                intro he; subst he; exact absurd hc (by decide)
              have hbeq : (('*' : Char) == c) = false := by
                simp [Ne.symm hcs]
              simp [tripleEmph, List.isPrefixOf, hbeq]

theorem goodMark_em : goodMark ⟨"em".toList, []⟩ := by
  constructor
  · simp [allowedMarkTypes]
  · exact Or.inl rfl

theorem goodMark_strong : goodMark ⟨"strong".toList, []⟩ := by
  constructor
  · simp [allowedMarkTypes]
  · exact Or.inl rfl

theorem goodMark_code : goodMark ⟨"code".toList, []⟩ := by
  constructor
  · simp [allowedMarkTypes]
  · exact Or.inl rfl

theorem goodMark_link (h : List Char) :
    goodMark ⟨"link".toList, [("href".toList, JSONVal.str h)]⟩ := by
  constructor
  · simp [allowedMarkTypes]
  · exact Or.inr ⟨rfl, h, rfl⟩

theorem nodeGood_mk (t tx : List Char) (a : List (List Char × JSONVal))
    {c : List ADFNode} {ms : List ADFMark}
    (hm : ∀ m ∈ ms, goodMark m) (hc : ∀ x ∈ c, NodeGood x) :
    NodeGood (.mk t tx c a ms) :=
  NodeGood.intro t tx c a ms hm hc

theorem nodeGood_addMark {x : ADFNode} {m : ADFMark}
    (hx : NodeGood x) (hm : goodMark m) : NodeGood (x.addMark m) := by
  cases hx with
  | intro t tx c a ms hms hc =>
      refine NodeGood.intro t tx c a (ms ++ [m]) ?_ hc
      intro m' hm'
      rcases List.mem_append.1 hm' with h1 | h2
      · exact hms m' h1
      · rw [List.mem_singleton.1 h2]; exact hm

theorem inlineGoodAux : ∀ k : Nat,
    (∀ n : MDNode, sizeOf n ≤ k → ∀ r ∈ convertInlineNode n, NodeGood r) ∧
    (∀ ns : List MDNode, sizeOf ns ≤ k → ∀ r ∈ convertInlineContent ns, NodeGood r) := by
  intro k
  induction k using Nat.strong_induction_on with
  | _ k IH =>
    have hcont : ∀ (cs : List MDNode), sizeOf cs < k →
        ∀ r ∈ convertInlineContent cs, NodeGood r :=
      fun cs hlt => (IH (sizeOf cs) hlt).2 cs le_rfl
    constructor
    · intro n hk r hr
      cases n with
      | text seg soft =>
          simp only [convertInlineNode] at hr
          split at hr
          · simp at hr
          · split at hr
            · simp only [List.mem_cons, List.not_mem_nil, or_false] at hr
              rcases hr with rfl | rfl <;> exact nodeGood_mk _ _ _ (by simp) (by simp)
            · simp only [List.mem_cons, List.not_mem_nil, or_false] at hr
              subst hr
              exact nodeGood_mk _ _ _ (by simp) (by simp)
      | strNode v =>
          simp only [convertInlineNode] at hr
          split at hr
          · simp at hr
          · simp only [List.mem_cons, List.not_mem_nil, or_false] at hr
            subst hr
            exact nodeGood_mk _ _ _ (by simp) (by simp)
      | emphasis lvl cs =>
          simp only [convertInlineNode, applyMark] at hr
          obtain ⟨x, hx, rfl⟩ := List.mem_map.1 hr
          have hsz : sizeOf cs < sizeOf (MDNode.emphasis lvl cs) := by
            simp
          have hxg : NodeGood x := hcont cs (lt_of_lt_of_le hsz hk) x hx
          apply nodeGood_addMark hxg
          by_cases h2 : lvl = 2
          · simp only [h2, if_pos rfl]; exact goodMark_strong
          · simp only [if_neg h2]; exact goodMark_em
      | codeSpan cs =>
          simp only [convertInlineNode, List.mem_cons, List.not_mem_nil, or_false] at hr
          subst hr
          exact nodeGood_mk _ _ _ (by simpa using goodMark_code) (by simp)
      | link dest cs =>
          simp only [convertInlineNode, applyMark] at hr
          obtain ⟨x, hx, rfl⟩ := List.mem_map.1 hr
          have hsz : sizeOf cs < sizeOf (MDNode.link dest cs) := by
            simp
          exact nodeGood_addMark (hcont cs (lt_of_lt_of_le hsz hk) x hx) (goodMark_link dest)
      | autoLink url =>
          simp only [convertInlineNode, List.mem_cons, List.not_mem_nil, or_false] at hr
          subst hr
          exact nodeGood_mk _ _ _ (by simpa using goodMark_link url) (by simp)
      | rawHTML => simp [convertInlineNode] at hr
      | image title dest =>
          simp only [convertInlineNode, List.mem_cons, List.not_mem_nil, or_false] at hr
          subst hr
          exact nodeGood_mk _ _ _ (by simpa using goodMark_link dest) (by simp)
      | heading lvl cs =>
          have hsz : sizeOf cs < sizeOf (MDNode.heading lvl cs) := by simp
          exact hcont cs (lt_of_lt_of_le hsz hk) r (by simpa [convertInlineNode] using hr)
      | paragraph cs =>
          have hsz : sizeOf cs < sizeOf (MDNode.paragraph cs) := by simp
          exact hcont cs (lt_of_lt_of_le hsz hk) r (by simpa [convertInlineNode] using hr)
      | list ordered cs =>
          have hsz : sizeOf cs < sizeOf (MDNode.list ordered cs) := by simp
          exact hcont cs (lt_of_lt_of_le hsz hk) r (by simpa [convertInlineNode] using hr)
      | listItem cs =>
          have hsz : sizeOf cs < sizeOf (MDNode.listItem cs) := by simp
          exact hcont cs (lt_of_lt_of_le hsz hk) r (by simpa [convertInlineNode] using hr)
      | textBlock cs =>
          have hsz : sizeOf cs < sizeOf (MDNode.textBlock cs) := by simp
          exact hcont cs (lt_of_lt_of_le hsz hk) r (by simpa [convertInlineNode] using hr)
      | blockquote cs =>
          have hsz : sizeOf cs < sizeOf (MDNode.blockquote cs) := by simp
          exact hcont cs (lt_of_lt_of_le hsz hk) r (by simpa [convertInlineNode] using hr)
      | table cs =>
          have hsz : sizeOf cs < sizeOf (MDNode.table cs) := by simp
          exact hcont cs (lt_of_lt_of_le hsz hk) r (by simpa [convertInlineNode] using hr)
      | tableHeader cs =>
          have hsz : sizeOf cs < sizeOf (MDNode.tableHeader cs) := by simp
          exact hcont cs (lt_of_lt_of_le hsz hk) r (by simpa [convertInlineNode] using hr)
      | tableRow cs =>
          have hsz : sizeOf cs < sizeOf (MDNode.tableRow cs) := by simp
          exact hcont cs (lt_of_lt_of_le hsz hk) r (by simpa [convertInlineNode] using hr)
      | tableCell cs =>
          have hsz : sizeOf cs < sizeOf (MDNode.tableCell cs) := by simp
          exact hcont cs (lt_of_lt_of_le hsz hk) r (by simpa [convertInlineNode] using hr)
      | codeBlock lines => simp [convertInlineNode] at hr
      | fencedCodeBlock lang lines => simp [convertInlineNode] at hr
      | thematicBreak => simp [convertInlineNode] at hr
    · intro ns hk r hr
      cases ns with
      | nil => simp [convertInlineContent] at hr
      | cons n t =>
          simp only [convertInlineContent] at hr
          have hszn : sizeOf n < sizeOf (n :: t) := by simp; omega
          have hszt : sizeOf t < sizeOf (n :: t) := by simp
          rcases List.mem_append.1 hr with h1 | h2
          · exact (IH (sizeOf n) (lt_of_lt_of_le hszn hk)).1 n le_rfl r h1
          · exact (IH (sizeOf t) (lt_of_lt_of_le hszt hk)).2 t le_rfl r h2

theorem convertInlineNode_good (n : MDNode) : ∀ r ∈ convertInlineNode n, NodeGood r :=
  (inlineGoodAux (sizeOf n)).1 n le_rfl

theorem convertInlineContent_good (ns : List MDNode) :
    ∀ r ∈ convertInlineContent ns, NodeGood r :=
  (inlineGoodAux (sizeOf ns)).2 ns le_rfl

theorem blockGoodAux : ∀ k : Nat,
    (∀ n : MDNode, sizeOf n ≤ k → ∀ r, convertNode n = some r → NodeGood r) ∧
    (∀ ns : List MDNode, sizeOf ns ≤ k →
      (∀ r ∈ convertNodes ns, NodeGood r) ∧
      (∀ r ∈ convertListItems ns, NodeGood r) ∧
      (∀ r ∈ listItemContent ns, NodeGood r) ∧
      (∀ r ∈ convertBlockquoteContent ns, NodeGood r) ∧
      (∀ r ∈ convertTableRows ns, NodeGood r) ∧
      (∀ isH : Bool, ∀ r ∈ convertTableCells ns isH, NodeGood r)) := by
  intro k
  induction k using Nat.strong_induction_on with
  | _ k IH =>
    constructor
    · intro n hk r hr
      cases n with
      | heading lvl cs =>
          simp only [convertNode, Option.some.injEq] at hr
          subst hr
          exact nodeGood_mk _ _ _ (by simp) (fun x hx => convertInlineContent_good cs x hx)
      | paragraph cs =>
          simp only [convertNode, convertParagraph] at hr
          split at hr
          · exact absurd hr (by simp)
          · simp only [Option.some.injEq] at hr
            subst hr
            exact nodeGood_mk _ _ _ (by simp) (fun x hx => convertInlineContent_good cs x hx)
      | codeBlock lines =>
          simp only [convertNode, Option.some.injEq] at hr
          subst hr
          refine nodeGood_mk _ _ _ (by simp) ?_
          intro x hx
          simp only [List.mem_cons, List.not_mem_nil, or_false] at hx
          subst hx
          exact nodeGood_mk _ _ _ (by simp) (by simp)
      | fencedCodeBlock lang lines =>
          simp only [convertNode, Option.some.injEq] at hr
          subst hr
          refine nodeGood_mk _ _ _ (by simp) ?_
          intro x hx
          simp only [List.mem_cons, List.not_mem_nil, or_false] at hx
          subst hx
          exact nodeGood_mk _ _ _ (by simp) (by simp)
      | list ordered cs =>
          simp only [convertNode, Option.some.injEq] at hr
          subst hr
          have hszc : sizeOf cs < k := by
            have h1 : sizeOf (MDNode.list ordered cs) ≤ k := hk
            simp at h1
            omega
          simp only [convertList]
          refine nodeGood_mk _ _ _ ?_
            (fun x hx => ((IH (sizeOf cs) hszc).2 cs le_rfl).2.1 x hx)
          simp
      | blockquote cs =>
          simp only [convertNode, Option.some.injEq] at hr
          subst hr
          have hszc : sizeOf cs < k := by
            have h1 : sizeOf (MDNode.blockquote cs) ≤ k := hk
            simp at h1
            omega
          refine nodeGood_mk _ _ _ ?_
            (fun x hx => ((IH (sizeOf cs) hszc).2 cs le_rfl).2.2.2.1 x hx)
          simp
      | thematicBreak =>
          simp only [convertNode, Option.some.injEq] at hr
          subst hr
          exact nodeGood_mk _ _ _ (by simp) (by simp)
      | table cs =>
          simp only [convertNode, Option.some.injEq] at hr
          subst hr
          have hszc : sizeOf cs < k := by
            have h1 : sizeOf (MDNode.table cs) ≤ k := hk
            simp at h1
            omega
          refine nodeGood_mk _ _ _ ?_
            (fun x hx => ((IH (sizeOf cs) hszc).2 cs le_rfl).2.2.2.2.1 x hx)
          simp
      | listItem cs => simp [convertNode] at hr
      | textBlock cs => simp [convertNode] at hr
      | tableHeader cs => simp [convertNode] at hr
      | tableRow cs => simp [convertNode] at hr
      | tableCell cs => simp [convertNode] at hr
      | text seg soft => simp [convertNode] at hr
      | strNode v => simp [convertNode] at hr
      | emphasis lvl cs => simp [convertNode] at hr
      | codeSpan cs => simp [convertNode] at hr
      | link dest cs => simp [convertNode] at hr
      | autoLink url => simp [convertNode] at hr
      | rawHTML => simp [convertNode] at hr
      | image title dest => simp [convertNode] at hr
    · intro ns hk
      cases ns with
      | nil =>
          refine ⟨?_, ?_, ?_, ?_, ?_, ?_⟩
          · intro r hr; simp [convertNodes] at hr
          · intro r hr; simp [convertListItems] at hr
          · intro r hr; simp [listItemContent] at hr
          · intro r hr; simp [convertBlockquoteContent] at hr
          · intro r hr; simp [convertTableRows] at hr
          · intro isH r hr; simp [convertTableCells] at hr
      | cons n t =>
          have hszt : sizeOf t < sizeOf (n :: t) := by simp
          have hszn : sizeOf n < k := by
            have h1 : sizeOf (n :: t) ≤ k := hk
            simp at h1
            omega
          have IHt := (IH (sizeOf t) (lt_of_lt_of_le hszt hk)).2 t le_rfl
          refine ⟨?_, ?_, ?_, ?_, ?_, ?_⟩
          · intro r hr
            simp only [convertNodes] at hr
            cases hcn : convertNode n with
            | some x =>
                rw [hcn] at hr
                rcases List.mem_cons.1 hr with rfl | h2
                · exact (IH (sizeOf n) hszn).1 n le_rfl r hcn
                · exact IHt.1 r h2
            | none =>
                rw [hcn] at hr
                exact IHt.1 r hr
          · intro r hr
            cases n
            case listItem cs =>
                simp only [convertListItems] at hr
                rcases List.mem_cons.1 hr with rfl | h2
                · have hszc : sizeOf cs < k := by
                    have h1 : sizeOf (MDNode.listItem cs :: t) ≤ k := hk
                    simp at h1
                    omega
                  simp only [convertListItem]
                  refine nodeGood_mk _ _ _ ?_
                    (fun x hx => ((IH (sizeOf cs) hszc).2 cs le_rfl).2.2.1 x hx)
                  simp
                · exact IHt.2.1 r h2
            all_goals (simp only [convertListItems] at hr; exact IHt.2.1 r hr)
          · intro r hr
            cases n
            case textBlock cs =>
                simp only [listItemContent] at hr
                rcases List.mem_append.1 hr with h1 | h2
                · split at h1
                  · simp at h1
                  · simp only [List.mem_cons, List.not_mem_nil, or_false] at h1
                    subst h1
                    exact nodeGood_mk _ _ _ (by simp)
                      (fun x hx => convertInlineContent_good cs x hx)
                · exact IHt.2.2.1 r h2
            case paragraph cs =>
                simp only [listItemContent] at hr
                rcases List.mem_append.1 hr with h1 | h2
                · cases hcp : convertParagraph cs with
                  | some p =>
                      rw [hcp] at h1
                      simp only [List.mem_cons, List.not_mem_nil, or_false] at h1
                      subst h1
                      simp only [convertParagraph] at hcp
                      split at hcp
                      · exact absurd hcp (by simp)
                      · simp only [Option.some.injEq] at hcp
                        subst hcp
                        exact nodeGood_mk _ _ _ (by simp)
                          (fun x hx => convertInlineContent_good cs x hx)
                  | none =>
                      rw [hcp] at h1
                      simp at h1
                · exact IHt.2.2.1 r h2
            case list ordered cs =>
                simp only [listItemContent] at hr
                rcases List.mem_cons.1 hr with rfl | h2
                · have hszc : sizeOf cs < k := by
                    have h1 : sizeOf (MDNode.list ordered cs :: t) ≤ k := hk
                    simp at h1
                    omega
                  simp only [convertList]
                  refine nodeGood_mk _ _ _ ?_
                    (fun x hx => ((IH (sizeOf cs) hszc).2 cs le_rfl).2.1 x hx)
                  simp
                · exact IHt.2.2.1 r h2
            all_goals (simp only [listItemContent] at hr; exact IHt.2.2.1 r hr)
          · intro r hr
            cases n
            case paragraph cs =>
                simp only [convertBlockquoteContent] at hr
                rcases List.mem_append.1 hr with h1 | h2
                · cases hcp : convertParagraph cs with
                  | some p =>
                      rw [hcp] at h1
                      simp only [List.mem_cons, List.not_mem_nil, or_false] at h1
                      subst h1
                      simp only [convertParagraph] at hcp
                      split at hcp
                      · exact absurd hcp (by simp)
                      · simp only [Option.some.injEq] at hcp
                        subst hcp
                        exact nodeGood_mk _ _ _ (by simp)
                          (fun x hx => convertInlineContent_good cs x hx)
                  | none =>
                      rw [hcp] at h1
                      simp at h1
                · exact IHt.2.2.2.1 r h2
            all_goals (simp only [convertBlockquoteContent] at hr; exact IHt.2.2.2.1 r hr)
          · intro r hr
            cases n
            case tableHeader cs =>
                simp only [convertTableRows] at hr
                rcases List.mem_cons.1 hr with rfl | h2
                · have hszc : sizeOf cs < k := by
                    have h1 : sizeOf (MDNode.tableHeader cs :: t) ≤ k := hk
                    simp at h1
                    omega
                  simp only [convertTableRow]
                  refine nodeGood_mk _ _ _ ?_
                    (fun x hx => ((IH (sizeOf cs) hszc).2 cs le_rfl).2.2.2.2.2 true x hx)
                  simp
                · exact IHt.2.2.2.2.1 r h2
            case tableRow cs =>
                simp only [convertTableRows] at hr
                rcases List.mem_cons.1 hr with rfl | h2
                · have hszc : sizeOf cs < k := by
                    have h1 : sizeOf (MDNode.tableRow cs :: t) ≤ k := hk
                    simp at h1
                    omega
                  simp only [convertTableRow]
                  refine nodeGood_mk _ _ _ ?_
                    (fun x hx => ((IH (sizeOf cs) hszc).2 cs le_rfl).2.2.2.2.2 false x hx)
                  simp
                · exact IHt.2.2.2.2.1 r h2
            all_goals (simp only [convertTableRows] at hr; exact IHt.2.2.2.2.1 r hr)
          · intro isH r hr
            cases n
            case tableCell cs =>
                simp only [convertTableCells] at hr
                rcases List.mem_cons.1 hr with rfl | h2
                · refine nodeGood_mk _ _ _ (by simp) ?_
                  intro x hx
                  split at hx
                  · simp at hx
                  · simp only [List.mem_cons, List.not_mem_nil, or_false] at hx
                    subst hx
                    exact nodeGood_mk _ _ _ (by simp)
                      (fun y hy => convertInlineContent_good cs y hy)
                · exact IHt.2.2.2.2.2 isH r h2
            all_goals (simp only [convertTableCells] at hr; exact IHt.2.2.2.2.2 isH r hr)

theorem convertNode_good (n : MDNode) : ∀ r, convertNode n = some r → NodeGood r :=
  (blockGoodAux (sizeOf n)).1 n le_rfl

theorem convertNodes_good (ns : List MDNode) : ∀ r ∈ convertNodes ns, NodeGood r :=
  ((blockGoodAux (sizeOf ns)).2 ns le_rfl).1

theorem mem_convertNodes {r : ADFNode} : ∀ {ns : List MDNode}, r ∈ convertNodes ns →
    ∃ n ∈ ns, convertNode n = some r := by
  intro ns
  induction ns with
  | nil => intro h; simp [convertNodes] at h
  | cons n t ih =>
      intro h
      simp only [convertNodes] at h
      cases hcn : convertNode n with
      | some x =>
          rw [hcn] at h
          rcases List.mem_cons.1 h with rfl | h2
          · exact ⟨n, List.mem_cons_self n t, hcn⟩
          · obtain ⟨m, hm, he⟩ := ih h2
            exact ⟨m, List.mem_cons_of_mem n hm, he⟩
      | none =>
          rw [hcn] at h
          obtain ⟨m, hm, he⟩ := ih h
          exact ⟨m, List.mem_cons_of_mem n hm, he⟩

/-! ### Claim theorems -/

/-- C7.  `WikiToMarkdown` is the identity on the pure-Markdown inputs the
claim lists: an ATX heading, a Markdown link, a dash bullet list, and the
empty string. -/
theorem c7_wiki_passthrough_identity :
    wikiToMarkdown ("# Title".toList) = ("# Title".toList) ∧
    wikiToMarkdown ("[x](y)".toList) = ("[x](y)".toList) ∧
    wikiToMarkdown ("- a\n- b".toList) = ("- a\n- b".toList) ∧
    wikiToMarkdown ([]) = ([]) := by
  refine ⟨by decide, by decide, by decide, rfl⟩

/-- C6.  The exact rewrites of `WikiToMarkdown` the claim states: the
`h2.` heading, the fenced `code:go` block with its body trimmed of one
leading and one trailing newline, the one- and two-star bullets; and, in
general (`convertWikiListLine`), one-, two- and three-star bullets become
dash bullets with zero, two and four added spaces of indent, preserving
any existing leading whitespace. -/
theorem c6_wiki_rewrites :
    wikiToMarkdown ("h2. Section".toList) = ("## Section".toList) ∧
    wikiToMarkdown ("\x7bcode:go\x7d\nfunc f()\x7b\x7d\n\x7bcode\x7d".toList) =
      ("```go\nfunc f()\x7b\x7d\n```".toList) ∧
    wikiToMarkdown ("* a\n** b".toList) = ("- a\n  - b".toList) ∧
    ∀ (bs : List Bool) (rest : List Char),
      convertWikiListLine (wsIndent bs ++ '*' :: ' ' :: rest) =
        wsIndent bs ++ '-' :: ' ' :: rest ∧
      convertWikiListLine (wsIndent bs ++ '*' :: '*' :: ' ' :: rest) =
        wsIndent bs ++ ' ' :: ' ' :: '-' :: ' ' :: rest ∧
      convertWikiListLine (wsIndent bs ++ '*' :: '*' :: '*' :: ' ' :: rest) =
        wsIndent bs ++ ' ' :: ' ' :: ' ' :: ' ' :: '-' :: ' ' :: rest := by
  refine ⟨by decide, by decide, by decide, ?_⟩
  intro bs rest
  refine ⟨?_, ?_, ?_⟩ <;>
    simp [convertWikiListLine, wsIndent_dropWhile, wsIndent_take, List.isPrefixOf]

/-- Counterexample for C1: `"a\n\nb"` is a non-empty Markdown string of
plain-text paragraphs, yet the round trip yields `"a\nb\n"` — the
blank-line paragraph separator collapses to the single newline each
paragraph contributes — which differs from the claim's predicted output
under either reading of the soft-break normalization (`"a\n\nb\n"`, or
`"a  b\n"` if every newline were normalized). -/
theorem c1_multiparagraph_counterexample :
    ADFDocument.toPlainText (markdownToADF ("a\n\nb".toList)) = ("a\nb\n".toList) ∧
    ("a\nb\n".toList) ≠ ("a\n\nb\n".toList) ∧
    ("a\nb\n".toList) ≠ (("a\n\nb".toList).map nlToSpace ++ ['\n']) :=
  ⟨rfl, by decide, by decide⟩

/-- C1 (amended).  For a non-empty Markdown input forming one single
paragraph of plain text — every line non-empty, free of markup-relevant
characters, and without leading or trailing whitespace —
`ToPlainText(MarkdownToADF(s))` is `s` with each soft line break
normalized to a single space, followed by one trailing newline.  (For
multi-paragraph input the blank separator lines are not reproduced; each
paragraph contributes its text and one newline.) -/
theorem c1_plain_paragraph_roundtrip (s : List Char)
    (h : ∀ l ∈ splitLines s, goodPlainLine l = true) :
    ADFDocument.toPlainText (markdownToADF s) = s.map nlToSpace ++ ['\n'] := by
  have hs : s ≠ [] := by
    intro he; subst he
    have := h [] (by simp [splitLines])
    simp [goodPlainLine] at this
  have hgroups : paraGroups (splitLines s) = [splitLines s] := by
    unfold paraGroups
    rw [paraGroupsGo_nonblank _ _ (fun l hl => goodPlainLine_not_blank (h l hl))]
    cases h' : splitLines s with
    | nil => exact absurd h' (splitLines_ne_nil s)
    | cons l ls => simp
  have hparse : parseModel s = [.paragraph (inlineOfLines (splitLines s))] := by
    simp [parseModel, hgroups,
      tripleEmph_none_of_plain _ (fun l hl => goodPlainLine_all_plain (h l hl))]
  obtain ⟨hcne, hcext⟩ :=
    extract_inline_good (splitLines s) (fun l hl => goodPlainLine_ne_nil (h l hl))
      (splitLines_ne_nil s)
  have hconv : convertNodes (parseModel s) =
      [ADFNode.mk ("paragraph".toList) []
        (convertInlineContent (inlineOfLines (splitLines s))) [] []] := by
    rw [hparse]
    cases hX : convertInlineContent (inlineOfLines (splitLines s)) with
    | nil => exact absurd hX hcne
    | cons a as => simp [convertNodes, convertNode, convertParagraph, hX]
  have hfinal : markdownToADF s = some ⟨"doc".toList, 1,
      [ADFNode.mk ("paragraph".toList) []
        (convertInlineContent (inlineOfLines (splitLines s))) [] []]⟩ := by
    simp [markdownToADF, hs, hconv]
  rw [hfinal]
  have hlen : 0 < (convertInlineContent (inlineOfLines (splitLines s))).length := by
    cases hX : convertInlineContent (inlineOfLines (splitLines s)) with
    | nil => exact absurd hX hcne
    | cons a as => simp
  simp only [ADFDocument.toPlainText, extractText, extractNodeText, List.append_nil,
    if_ne_nil_eq, if_pos hlen]
  rw [if_pos (Or.inl trivial), hcext, map_nlToSpace_eq_joinWith]
  simp

/-- Witness for C1 at the two-line single paragraph `"ab\ncd"`. -/
theorem c1_plain_paragraph_roundtrip_witness :
    (∀ l ∈ splitLines ("ab\ncd".toList), goodPlainLine l = true) ∧
    ADFDocument.toPlainText (markdownToADF ("ab\ncd".toList)) =
      (("ab\ncd".toList).map nlToSpace ++ ['\n']) :=
  ⟨by decide, c1_plain_paragraph_roundtrip ("ab\ncd".toList) (by decide)⟩

/-- Counterexample for C3: on `"# a\n### x"` the only matching wiki
signature is the `#` line pattern, the claim's criterion (at least two
lines starting with a single or double `#` followed by a short hash-free
run) counts only one qualifying line, yet `IsWikiMarkup` returns true —
the source counts ANY line whose trimmed form starts with `#` towards the
two-line threshold. -/
theorem c3_counterexample :
    ([patHeadingWiki, patMonospace, patCodeBlock, patNoformat, patQuote, patPipeLink,
      patImage, patBq].all (fun p => !p ("# a\n### x".toList))) = true ∧
    isWikiMarkup ("# a\n### x".toList) = true ∧
    claimTwoHashLines ("# a\n### x".toList) = false :=
  ⟨by decide, by decide, by decide⟩

/-- C3 (amended).  The claim's concrete examples hold as stated; for a
text matching none of the other wiki signatures, `IsWikiMarkup` returns
true iff the text matches the line-start `#`-run pattern AND some line's
trimmed form starts with `"# "` or `"## "` with a short (under 80
characters) hash-free remainder after stripping leading `#`/space
characters AND at least two lines' trimmed forms start with `#`. -/
theorem c3_hash_heuristic :
    isWikiMarkup ([]) = false ∧
    isWikiMarkup ("# Heading\n\nSome **bold** text".toList) = false ∧
    isWikiMarkup ("h1. Title".toList) = true ∧
    isWikiMarkup ("\x7b\x7bcode\x7d\x7d".toList) = true ∧
    isWikiMarkup ("bq. quoted".toList) = true ∧
    ∀ t : List Char,
      ([patHeadingWiki, patMonospace, patCodeBlock, patNoformat, patQuote, patPipeLink,
        patImage, patBq].all (fun p => !p t)) = true →
      isWikiMarkup t = specHashTrigger t := by
  refine ⟨by decide, by decide, by decide, by decide, by decide, ?_⟩
  intro t h
  simp only [List.all_cons, List.all_nil, Bool.and_eq_true, Bool.not_eq_true'] at h
  obtain ⟨h1, h2, h3, h4, h5, h6, h7, h8, -⟩ := h
  have hX : isWikiMarkup t = (patNumList t && looksLikeWikiNumberedList t) := by
    simp only [isWikiMarkup, h1, h2, h3, h4, h5, h6, h7, h8]
    cases hpn : (patNumList t && looksLikeWikiNumberedList t) <;> simp [hpn]
  rw [hX, numList_heuristic_eq_spec]

/-- Witness for C3 at a genuine two-line wiki numbered list. -/
theorem c3_hash_heuristic_witness :
    ([patHeadingWiki, patMonospace, patCodeBlock, patNoformat, patQuote, patPipeLink,
      patImage, patBq].all (fun p => !p ("# one\n# two".toList))) = true ∧
    isWikiMarkup ("# one\n# two".toList) = specHashTrigger ("# one\n# two".toList) :=
  ⟨by decide, c3_hash_heuristic.2.2.2.2.2 ("# one\n# two".toList) (by decide)⟩

/-- C2.  `MarkdownToADF` is total; the empty input yields the absent
document, and any non-empty input whose tree walk produces zero content
nodes yields the fallback document: a single paragraph whose sole text
node is the raw input verbatim. -/
theorem c2_empty_and_fallback :
    markdownToADF ([]) = none ∧
    ∀ s : List Char, s ≠ [] → convertNodes (parseModel s) = [] →
      markdownToADF s = some ⟨"doc".toList, 1,
        [.mk ("paragraph".toList) [] [.mk ("text".toList) s [] [] []] [] []]⟩ := by
  refine ⟨rfl, ?_⟩
  intro s hs hc
  simp [markdownToADF, hs, hc]

/-- Witness for C2 at the whitespace-only input `"   "`. -/
theorem c2_empty_and_fallback_witness :
    ("   ".toList ≠ ([] : List Char)) ∧
    convertNodes (parseModel ("   ".toList)) = [] ∧
    markdownToADF ("   ".toList) = some ⟨"doc".toList, 1,
      [.mk ("paragraph".toList) [] [.mk ("text".toList) ("   ".toList) [] [] []] [] []]⟩ :=
  ⟨by decide, rfl, c2_empty_and_fallback.2 ("   ".toList) (by decide) rfl⟩

/-- Counterexample for C4: on a JSON number — neither a plain string nor a
structured document — `Description.UnmarshalJSON` returns a nil error (and
a zero-valued result), not the non-nil parse error the claim requires; a
JSON array behaves the same. -/
theorem c4_unmarshal_counterexample :
    Description.unmarshalJSON (JSONVal.num 5) = .ok ⟨[], none⟩ ∧
    Description.unmarshalJSON (JSONVal.arr []) = .ok ⟨[], none⟩ :=
  ⟨rfl, rfl⟩

/-- C4 (amended).  `Description.UnmarshalJSON` never returns an error: any
value decodes to some `Description`, and a value that is neither a plain
string nor a structured document is silently ignored, leaving the
zero-valued `Description` and a nil error. -/
theorem c4_unmarshal_never_errors :
    (∀ v : JSONVal, ∃ d, Description.unmarshalJSON v = .ok d) ∧
    (∀ v : JSONVal, neitherStringNorDocument v = true →
      Description.unmarshalJSON v = .ok ⟨[], none⟩) := by
  constructor
  · intro v
    cases v with
    | obj fs =>
        simp only [Description.unmarshalJSON, decodeGoString]
        cases h : decodeADFDocument (JSONVal.obj fs) <;> simp [h]
    | _ => exact ⟨_, rfl⟩
  · intro v hv
    cases v <;> first | rfl | simp [neitherStringNorDocument] at hv

/-- Witness for C4 at a JSON boolean. -/
theorem c4_unmarshal_never_errors_witness :
    neitherStringNorDocument (JSONVal.boolV true) = true ∧
    Description.unmarshalJSON (JSONVal.boolV true) = .ok ⟨[], none⟩ :=
  ⟨by decide, c4_unmarshal_never_errors.2 (JSONVal.boolV true) (by decide)⟩

/-- C5.  Emphasis marks: `MarkdownToADF("***x***")` yields a text node
`"x"` carrying both a `strong` and an `em` mark; in general an emphasis
node of level 1 applies an `em` mark and one of level 2 a `strong` mark to
every produced text node (`applyMark` appends the mark to each node's mark
list), and the marks accumulate under nesting. -/
theorem c5_emphasis_marks_compose :
    markdownToADF ("***x***".toList) = some ⟨"doc".toList, 1,
      [.mk ("paragraph".toList) []
        [.mk ("text".toList) ("x".toList) [] []
          [⟨"strong".toList, []⟩, ⟨"em".toList, []⟩]] [] []]⟩ ∧
    (∀ cs : List MDNode, convertInlineNode (.emphasis 1 cs) =
      applyMark (convertInlineContent cs) ("em".toList) []) ∧
    (∀ cs : List MDNode, convertInlineNode (.emphasis 2 cs) =
      applyMark (convertInlineContent cs) ("strong".toList) []) ∧
    (∀ (ns : List ADFNode) (mt : List Char) (ats : List (List Char × JSONVal)),
      (applyMark ns mt ats).map ADFNode.marks =
        ns.map (fun n => n.marks ++ [⟨mt, ats⟩])) ∧
    (∀ cs : List MDNode, ∀ n ∈ convertInlineNode (.emphasis 1 [.emphasis 2 cs]),
      (⟨"strong".toList, []⟩ : ADFMark) ∈ n.marks ∧
        (⟨"em".toList, []⟩ : ADFMark) ∈ n.marks) := by
  refine ⟨rfl, fun cs => rfl, fun cs => rfl, ?_, ?_⟩
  · intro ns mt ats
    simp [applyMark, List.map_map, Function.comp, marks_addMark]
  · intro cs n hn
    have h2 : convertInlineNode (.emphasis 1 [.emphasis 2 cs]) =
        applyMark (applyMark (convertInlineContent cs) ("strong".toList) [] ++ [])
          ("em".toList) [] := rfl
    rw [h2, List.append_nil] at hn
    simp only [applyMark, List.mem_map] at hn
    obtain ⟨y, ⟨x, hx, rfl⟩, rfl⟩ := hn
    constructor <;> simp [marks_addMark]

/-- Witness for C5 at the inner text run `"y"`. -/
theorem c5_emphasis_marks_compose_witness :
    ((ADFNode.mk ("text".toList) ("y".toList) [] []
        [⟨"strong".toList, []⟩, ⟨"em".toList, []⟩]) ∈
      convertInlineNode (.emphasis 1 [.emphasis 2 [.text ("y".toList) false]])) ∧
    (⟨"strong".toList, []⟩ : ADFMark) ∈
      (ADFNode.mk ("text".toList) ("y".toList) [] []
        [⟨"strong".toList, []⟩, ⟨"em".toList, []⟩]).marks ∧
    (⟨"em".toList, []⟩ : ADFMark) ∈
      (ADFNode.mk ("text".toList) ("y".toList) [] []
        [⟨"strong".toList, []⟩, ⟨"em".toList, []⟩]).marks :=
  ⟨List.Mem.head _,
    c5_emphasis_marks_compose.2.2.2.2 [.text ("y".toList) false] _ (List.Mem.head _)⟩

/-- C8.  A table AST with one header row and two body rows, two cells
each, converts to a `table` node with exactly three `tableRow` children;
the first row's cells are typed `tableHeader`, the others `tableCell`, and
every cell wraps its inline content in one synthetic paragraph (an empty
child list when the inline content is empty). -/
theorem c8_table_shape (h1 h2 a1 a2 b1 b2 : List MDNode) :
    convertNode (.table [.tableHeader [.tableCell h1, .tableCell h2],
                          .tableRow [.tableCell a1, .tableCell a2],
                          .tableRow [.tableCell b1, .tableCell b2]]) =
      some (.mk ("table".toList) []
        [.mk ("tableRow".toList) [] [claimCellNode true h1, claimCellNode true h2] [] [],
         .mk ("tableRow".toList) [] [claimCellNode false a1, claimCellNode false a2] [] [],
         .mk ("tableRow".toList) [] [claimCellNode false b1, claimCellNode false b2] [] []]
        [] []) := by
  rfl

/-- C10.  Mark invariant: every mark produced by the conversion walk — on
any inline node, any block node, and hence in any document produced by
`MarkdownToADF` — has type `em`, `strong`, `code` or `link`, and only
`link` marks carry attributes (a single string-valued `href`).  In
particular no `strike` mark is ever produced, and `"~~x~~"` is emitted as
one literal text node with no marks (the strikethrough extension is not
enabled). -/
theorem c10_marks_invariant :
    (∀ n : MDNode, ∀ r ∈ convertInlineNode n, NodeGood r) ∧
    (∀ n : MDNode, ∀ r, convertNode n = some r → NodeGood r) ∧
    (∀ s : List Char, ∀ d, markdownToADF s = some d → ∀ r ∈ d.content, NodeGood r) ∧
    markdownToADF ("~~x~~".toList) = some ⟨"doc".toList, 1,
      [.mk ("paragraph".toList) []
        [.mk ("text".toList) ("~~x~~".toList) [] [] []] [] []]⟩ := by
  refine ⟨convertInlineNode_good, convertNode_good, ?_, rfl⟩
  intro s d hd r hr
  by_cases hs : s = []
  · subst hs; simp [markdownToADF] at hd
  · simp only [markdownToADF, if_neg hs] at hd
    split at hd
    · simp only [Option.some.injEq] at hd
      subst hd
      simp only [ADFDocument.content, List.mem_cons, List.not_mem_nil, or_false] at hr
      subst hr
      refine nodeGood_mk _ _ _ (by simp) ?_
      intro x hx
      simp only [List.mem_cons, List.not_mem_nil, or_false] at hx
      subst hx
      exact nodeGood_mk _ _ _ (by simp) (by simp)
    · simp only [Option.some.injEq] at hd
      subst hd
      simp only [ADFDocument.content] at hr
      exact convertNodes_good (parseModel s) r hr

/-- Witness for C10 at the thematic-break conversion. -/
theorem c10_marks_invariant_witness :
    NodeGood (ADFNode.mk ("rule".toList) [] [] [] []) :=
  c10_marks_invariant.2.1 .thematicBreak _ rfl

/-- C9.  The plain-text extractor is total and pure: the absent document
yields the empty string, and on any node list `extractText` agrees with
the spec's walk — every text payload emitted verbatim in depth-first
document order, with exactly one newline appended after each `paragraph`
or `hardBreak` node and no newline from any other node type. -/
theorem c9_plaintext_extraction :
    ADFDocument.toPlainText none = [] ∧
    ∀ ns : List ADFNode, extractText ns = plainTextSpecWalk ns :=
  ⟨rfl, extractText_eq_spec⟩

end JiraTicketCli
